import Mathlib

/-!
# Accelerometer FIFO middleware: a shallow embedding

Source: `src/Fitbit_Code_Challenge.cpp`.

The C program keeps three `accelerometerBuf_t` values (a count plus a 32-slot
array of 16-bit values).  Every array access of the C code is embedded as a
bounds-checked access on a list, so that an access outside the array (undefined
behaviour in C) shows up as a `Fault` instead of being silently defined.
Machine integers are naturals or integers with the wrap-around written out.
-/

namespace Fitbit

/-- Ways in which an execution of the embedded C code can leave defined behaviour. -/
inductive Fault where
  | readOutOfBounds (index : Int)
  | writeOutOfBounds (index : Int)
  | outOfFuel
deriving DecidableEq, Repr

deriving instance DecidableEq for Except

/-- Read of `a[i]` for a signed index; an index outside the array is a fault. -/
def rd (a : List Nat) (i : Int) : Except Fault Nat :=
  if i < 0 then .error (.readOutOfBounds i)
  else
    match a[i.toNat]? with
    | some v => .ok v
    | none => .error (.readOutOfBounds i)

/-- Write `a[i] = v` for a signed index; an index outside the array is a fault. -/
def wr (a : List Nat) (i : Int) (v : Nat) : Except Fault (List Nat) :=
  if i < 0 then .error (.writeOutOfBounds i)
  else if i.toNat < a.length then .ok (a.set i.toNat v)
  else .error (.writeOutOfBounds i)

/-- The C struct `accelerometerBuf_t`: `uint16_t numVals; uint16_t val[32];`.
A value of the C type has `val.length = 32`. -/
structure accelerometerBuf_t where
  numVals : Nat
  val : List Nat
deriving DecidableEq, Repr

/-- The C initialiser `= { 0 }`: count 0 and all 32 slots zero. -/
def zeroBuf : accelerometerBuf_t :=
  { numVals := 0, val := List.replicate 32 0 }

/-- The loop of `unpackAccelerometerFIFO` (source lines 144-159).  `currentByte` is a
`uint8_t` (increments wrap modulo 256), `numVals` and the stored samples are
`uint16_t` (modulo 65536).  The odd branch computes
`packedFIFO[currentByte - 1] & 0x0f << 8 | packedFIFO[currentByte]`, which C parses as
`(packedFIFO[currentByte - 1] & (0x0f << 8)) | packedFIFO[currentByte]`. -/
def unpackLoop (packedFIFO : List Nat) (numBytes : Nat) :
    Nat → Nat → accelerometerBuf_t → Except Fault accelerometerBuf_t
  | 0, _, _ => .error .outOfFuel
  | fuel + 1, currentByte, accelerometerFIFO =>
    if currentByte < numBytes then
      if accelerometerFIFO.numVals &&& 1 ≠ 0 then do
        let prev ← rd packedFIFO ((currentByte : Int) - 1)
        let cur ← rd packedFIFO currentByte
        let val ← wr accelerometerFIFO.val accelerometerFIFO.numVals
          (((prev &&& (0x0f <<< 8)) ||| cur) % 65536)
        unpackLoop packedFIFO numBytes fuel ((currentByte + 1) % 256)
          { numVals := (accelerometerFIFO.numVals + 1) % 65536, val := val }
      else do
        let cur ← rd packedFIFO currentByte
        let next ← rd packedFIFO ((currentByte : Int) + 1)
        let val ← wr accelerometerFIFO.val accelerometerFIFO.numVals
          (((cur <<< 4) ||| ((next &&& 0xf0) >>> 4)) % 65536)
        unpackLoop packedFIFO numBytes fuel (((currentByte + 1) % 256 + 1) % 256)
          { numVals := (accelerometerFIFO.numVals + 1) % 65536, val := val }
    else .ok accelerometerFIFO

/-- The function `unpackAccelerometerFIFO` (source lines 140-161).  The loop starts with
`numVals = 0` and `currentByte = 0`.  Every iteration writes `val[numVals]` and then
increments `numVals`, so on a 32-slot buffer the 33rd iteration faults: 34 units of
fuel are never used up. -/
def unpackAccelerometerFIFO (packedFIFO : List Nat) (numBytes : Nat)
    (accelerometerFIFO : accelerometerBuf_t) : Except Fault accelerometerBuf_t :=
  unpackLoop packedFIFO numBytes 34 0 { accelerometerFIFO with numVals := 0 }

/-- Conversion of an `int` value to `int8_t` (source line 33, a signed 8-bit value):
two's-complement wrap-around into -128..127. -/
def toInt8 (x : Int) : Int :=
  (x + 128) % 256 - 128

/-- Conversion of an `int` value to `int16_t` (source line 35): two's-complement
wrap-around into -32768..32767. -/
def toInt16 (x : Int) : Int :=
  (x + 32768) % 65536 - 32768

/-- The loop of `processAccelerometerBuf` (source lines 183-196).  `iBuf` and `iFIFO`
are the `int8_t` loop variables (an increment wraps into -128..127), `numValsFromBuf`
is the `int16_t` computed before the loop; the loop bound
`numValsFromBuf + accelerometerFIFO->numVals` and the index
`accelerometerBuf->numVals - numValsFromBuf + iBuf` are computed in `int`.  The loop
writes into `accelerometerBuf.val` in place; `accelerometerBuf.numVals` is only assigned
after the loop.  Returns the final `iBuf` and the buffer. -/
def bufLoop (accelerometerFIFO : accelerometerBuf_t) (numValsFromBuf : Int) :
    Nat → Int → Int → accelerometerBuf_t → Except Fault (Int × accelerometerBuf_t)
  | 0, _, _, _ => .error .outOfFuel
  | fuel + 1, iBuf, iFIFO, accelerometerBuf =>
    if iBuf < numValsFromBuf + (accelerometerFIFO.numVals : Int) then
      if iBuf < numValsFromBuf then do
        let v ← rd accelerometerBuf.val
          ((accelerometerBuf.numVals : Int) - numValsFromBuf + iBuf)
        let val ← wr accelerometerBuf.val iBuf v
        bufLoop accelerometerFIFO numValsFromBuf fuel (toInt8 (iBuf + 1)) iFIFO
          { accelerometerBuf with val := val }
      else do
        let v ← rd accelerometerFIFO.val iFIFO
        let val ← wr accelerometerBuf.val iBuf v
        bufLoop accelerometerFIFO numValsFromBuf fuel (toInt8 (iBuf + 1))
          (toInt8 (iFIFO + 1)) { accelerometerBuf with val := val }
    else .ok (iBuf, accelerometerBuf)

/-- The function `processAccelerometerBuf` (source lines 172-198).  The comparison
`numVals < 32 - numVals` is done in `int` after integer promotion, so `32 - numVals`
may be negative; the value chosen is then stored in the `int16_t numValsFromBuf`, which
wraps it into -32768..32767.  After the loop the `int8_t iBuf` is stored in the
`uint16_t numVals` (modulo 65536).  `iBuf` counts up from 0 and every iteration writes
`val[iBuf]`, so on a 32-slot window the 33rd test of the loop condition either leaves
the loop or is followed by a fault: 33 units of fuel are never used up. -/
def processAccelerometerBuf (accelerometerFIFO accelerometerBuf : accelerometerBuf_t) :
    Except Fault accelerometerBuf_t := do
  let numValsFromBuf : Int :=
    if (accelerometerBuf.numVals : Int) < 32 - (accelerometerFIFO.numVals : Int) then
      toInt16 (accelerometerBuf.numVals : Int)
    else
      toInt16 (32 - (accelerometerFIFO.numVals : Int))
  let (iBuf, buf) ← bufLoop accelerometerFIFO numValsFromBuf 33 0 0 accelerometerBuf
  .ok { buf with numVals := (iBuf % 65536).toNat }

/-- The inner loop of `processAccelerometerMax` (source lines 224-242) for the sample
`accelerometerFIFO.val[iFIFO]`.  The loop condition
`(iMax < 32) && (iMax <= accelerometerMax->numVals)` is evaluated again on every
iteration, after `numVals` may have been incremented. -/
def maxInner (accelerometerFIFO : accelerometerBuf_t) (iFIFO : Nat) :
    Nat → Nat → Nat → Bool → accelerometerBuf_t → Except Fault accelerometerBuf_t
  | 0, _, _, _, _ => .error .outOfFuel
  | fuel + 1, iMax, pushMax, newMax, accelerometerMax =>
    if iMax < 32 ∧ iMax ≤ accelerometerMax.numVals then
      if newMax then do
        let popMax ← rd accelerometerMax.val iMax
        let val ← wr accelerometerMax.val iMax pushMax
        maxInner accelerometerFIFO iFIFO fuel (iMax + 1) popMax newMax
          { accelerometerMax with val := val }
      else do
        let s ← rd accelerometerFIFO.val iFIFO
        let m ← rd accelerometerMax.val iMax
        if s ≥ m then do
          let popMax ← rd accelerometerMax.val iMax
          let s' ← rd accelerometerFIFO.val iFIFO
          let val ← wr accelerometerMax.val iMax s'
          maxInner accelerometerFIFO iFIFO fuel (iMax + 1) popMax true
            { numVals := if accelerometerMax.numVals < 32 then accelerometerMax.numVals + 1
                         else accelerometerMax.numVals,
              val := val }
        else
          maxInner accelerometerFIFO iFIFO fuel (iMax + 1) pushMax newMax accelerometerMax
    else .ok accelerometerMax

/-- The outer loop of `processAccelerometerMax` (source lines 217-243): one run of the
inner loop, started with `iMax = 0`, `pushMax = 0`, `newMax = 0`, per sample.  The inner
loop stops at `iMax = 32` at the latest, so 33 units of fuel suffice for it. -/
def maxOuter (accelerometerFIFO : accelerometerBuf_t) :
    Nat → Nat → accelerometerBuf_t → Except Fault accelerometerBuf_t
  | 0, _, _ => .error .outOfFuel
  | fuel + 1, iFIFO, accelerometerMax =>
    if iFIFO < accelerometerFIFO.numVals then do
      let mx ← maxInner accelerometerFIFO iFIFO 33 0 0 false accelerometerMax
      maxOuter accelerometerFIFO fuel (iFIFO + 1) mx
    else .ok accelerometerMax

/-- The function `processAccelerometerMax` (source lines 209-244).  The outer loop runs
`numVals` times, so `numVals + 1` units of fuel reach its exit. -/
def processAccelerometerMax (accelerometerFIFO accelerometerMax : accelerometerBuf_t) :
    Except Fault accelerometerBuf_t :=
  maxOuter accelerometerFIFO (accelerometerFIFO.numVals + 1) 0 accelerometerMax

/-- What one call of `getAccelerometerFIFOFromFile` leaves behind: the return value,
the global cursor `bytes_read_from_file`, and the two output parameters. -/
structure TransportResult where
  rtnVal : Int
  bytes_read_from_file : Nat
  packedFIFO : List Nat
  numBytes : Nat
deriving DecidableEq, Repr

/-- The function `getAccelerometerFIFOFromFile` (source lines 61-94).  `file` is the
content of the simulation file, `none` when `fopen` fails; in that case the function
returns -1 and leaves `packedFIFO`, `numBytes` and the cursor untouched.  `numBytes` and
the cursor are `uint32_t` (modulo 2^32); `fread` overwrites the first bytes of
`packedFIFO` and leaves the rest as it was. -/
def getAccelerometerFIFOFromFile (file : Option (List Nat)) (bytes_read_from_file : Nat)
    (packedFIFO : List Nat) (numBytes : Nat) : TransportResult :=
  match file with
  | none =>
    { rtnVal := -1, bytes_read_from_file := bytes_read_from_file,
      packedFIFO := packedFIFO, numBytes := numBytes }
  | some content =>
    let fileSize := content.length % 2 ^ 32
    let numBytes1 := (fileSize + 2 ^ 32 - bytes_read_from_file) % 2 ^ 32
    let numBytes2 := if numBytes1 > 48 then 48 else numBytes1
    let data := (content.drop bytes_read_from_file).take numBytes2
    let packedFIFO' := data ++ packedFIFO.drop data.length
    let bytes_read := (bytes_read_from_file + numBytes2) % 2 ^ 32
    if bytes_read ≥ fileSize then
      { rtnVal := 1, bytes_read_from_file := 0, packedFIFO := packedFIFO',
        numBytes := numBytes2 }
    else
      { rtnVal := 0, bytes_read_from_file := bytes_read, packedFIFO := packedFIFO',
        numBytes := numBytes2 }

/-- One line written by `outputData`: a section header or one `%i` value. -/
inductive OutputLine where
  | header (text : String)
  | value (v : Nat)
deriving DecidableEq, Repr

/-- The first printing loop of `outputData` (source lines 117-118): prints
`val[numVals - iteration - 1]` for `iteration = 0 .. numVals - 1`. -/
def outputMaxLoop (accelerometerMax : accelerometerBuf_t) :
    Nat → Nat → Except Fault (List OutputLine)
  | 0, _ => .error .outOfFuel
  | fuel + 1, iteration =>
    if iteration < accelerometerMax.numVals then do
      let v ← rd accelerometerMax.val
        ((accelerometerMax.numVals : Int) - (iteration : Int) - 1)
      let rest ← outputMaxLoop accelerometerMax fuel (iteration + 1)
      .ok (OutputLine.value v :: rest)
    else .ok []

/-- The second printing loop of `outputData` (source lines 121-122): prints
`val[iteration]` for `iteration = 0 .. numVals - 1`. -/
def outputBufLoop (accelerometerBuf : accelerometerBuf_t) :
    Nat → Nat → Except Fault (List OutputLine)
  | 0, _ => .error .outOfFuel
  | fuel + 1, iteration =>
    if iteration < accelerometerBuf.numVals then do
      let v ← rd accelerometerBuf.val iteration
      let rest ← outputBufLoop accelerometerBuf fuel (iteration + 1)
      .ok (OutputLine.value v :: rest)
    else .ok []

/-- The function `outputData` (source lines 105-126).  `opened` says whether `fopen` of
the output file succeeded; when it did not the function returns without writing
(`none`), otherwise the result is the list of lines written. -/
def outputData (opened : Bool) (accelerometerBuf accelerometerMax : accelerometerBuf_t) :
    Except Fault (Option (List OutputLine)) :=
  if opened then do
    let maxLines ← outputMaxLoop accelerometerMax (accelerometerMax.numVals + 1) 0
    let bufLines ← outputBufLoop accelerometerBuf (accelerometerBuf.numVals + 1) 0
    .ok (some (OutputLine.header "--Sorted Max 32 Values--" :: maxLines
      ++ OutputLine.header "--Last 32 Values--" :: bufLines))
  else .ok none

/-- The local state of `main` that the `do ... while` loop works on, plus the global
transport cursor. -/
structure DriverState where
  rtnVal : Int
  bytes_read_from_file : Nat
  packedFIFO : List Nat
  numBytes : Nat
  accelerometerFIFO : accelerometerBuf_t
  accelerometerBuf : accelerometerBuf_t
  accelerometerMax : accelerometerBuf_t
deriving DecidableEq, Repr

/-- The body of the `do ... while` loop of `main` (source lines 269-272): one transport
read, then unpack, then the two consumers.  The return value of the transport is stored
and not looked at inside the body. -/
def driverStep (file : Option (List Nat)) (st : DriverState) : Except Fault DriverState := do
  let t := getAccelerometerFIFOFromFile file st.bytes_read_from_file st.packedFIFO st.numBytes
  let fifo ← unpackAccelerometerFIFO t.packedFIFO t.numBytes st.accelerometerFIFO
  let buf ← processAccelerometerBuf fifo st.accelerometerBuf
  let mx ← processAccelerometerMax fifo st.accelerometerMax
  .ok { rtnVal := t.rtnVal, bytes_read_from_file := t.bytes_read_from_file,
        packedFIFO := t.packedFIFO, numBytes := t.numBytes,
        accelerometerFIFO := fifo, accelerometerBuf := buf, accelerometerMax := mx }

/-- The `do ... while (rtnVal == 0)` loop of `main` (source lines 268-273). -/
def driverLoop (file : Option (List Nat)) : Nat → DriverState → Except Fault DriverState
  | 0, _ => .error .outOfFuel
  | fuel + 1, st => do
    let st' ← driverStep file st
    if st'.rtnVal = 0 then driverLoop file fuel st' else .ok st'

/-- What a run of `main` produces: its exit status and what `outputData` wrote
(`none` when `outputData` wrote nothing). -/
structure MainResult where
  exitCode : Int
  output : Option (List OutputLine)
deriving DecidableEq, Repr

/-- The function `main` (source lines 246-277), from the point where the file names are
set.  `file` is the input file (`none` when it cannot be opened), `outOpened` whether
the output file can be opened.  `packedFIFO` and `numBytes` are uninitialised locals of
`main`, so their initial contents are parameters.  The three buffers start as `{ 0 }`.
Every transport read but the last consumes 48 bytes, so `length / 48 + 1` iterations
always reach the exit of the loop. -/
def main (file : Option (List Nat)) (outOpened : Bool) (packedFIFO : List Nat)
    (numBytes : Nat) : Except Fault MainResult := do
  let fuel := match file with
    | none => 1
    | some content => content.length / 48 + 1
  let st ← driverLoop file fuel
    { rtnVal := 0, bytes_read_from_file := 0, packedFIFO := packedFIFO, numBytes := numBytes,
      accelerometerFIFO := zeroBuf, accelerometerBuf := zeroBuf, accelerometerMax := zeroBuf }
  let out ← outputData outOpened st.accelerometerBuf st.accelerometerMax
  .ok { exitCode := 0, output := out }

/-- The samples a buffer holds: the first `numVals` slots of `val`, in index order. -/
def contents (b : accelerometerBuf_t) : List Nat :=
  b.val.take b.numVals

/-- All samples of a sequence of batches, in arrival order. -/
def allSamples : List accelerometerBuf_t → List Nat
  | [] => []
  | b :: bs => contents b ++ allSamples bs

/-- The retention window after `processAccelerometerBuf` has been called once per batch,
in order, as the loop of `main` does (source line 271). -/
def feedBuf : List accelerometerBuf_t → accelerometerBuf_t → Except Fault accelerometerBuf_t
  | [], accelerometerBuf => .ok accelerometerBuf
  | fifo :: rest, accelerometerBuf => do
    let buf ← processAccelerometerBuf fifo accelerometerBuf
    feedBuf rest buf

/-- The Top-K buffer after `processAccelerometerMax` has been called once per batch, in
order, as the loop of `main` does (source line 272). -/
def feedMax : List accelerometerBuf_t → accelerometerBuf_t → Except Fault accelerometerBuf_t
  | [], accelerometerMax => .ok accelerometerMax
  | fifo :: rest, accelerometerMax => do
    let mx ← processAccelerometerMax fifo accelerometerMax
    feedMax rest mx

/-- A batch as the codec hands it on: a 32-slot array of which at most 32 slots count. -/
def wellFormed (b : accelerometerBuf_t) : Prop :=
  b.val.length = 32 ∧ b.numVals ≤ 32

instance (b : accelerometerBuf_t) : Decidable (wellFormed b) := by
  unfold wellFormed; infer_instance

/-- Pure description of one run of the inner loop of `processAccelerometerMax` on a
buffer whose unused slots are zero: the sample is put in front of the first entry it is
greater than or equal to, the array is cut back to 32 slots, and the count grows by one
up to 32.  Used in the proofs only; `maxInner_eq_insertOne` relates it to the loop. -/
def insertOne (s : Nat) (mx : accelerometerBuf_t) : accelerometerBuf_t :=
  { numVals := min (mx.numVals + 1) 32,
    val := (List.orderedInsert (fun a b => a ≥ b) s mx.val).take 32 }

/-- The unused slots of a buffer, `val[numVals..32)`, are all zero. -/
def zeroTail (mx : accelerometerBuf_t) : Prop :=
  mx.val.length = 32 ∧ mx.numVals ≤ 32 ∧ ∀ x ∈ mx.val.drop mx.numVals, x = 0

/-- Value of `currentByte` at the start of the loop iteration of
`unpackAccelerometerFIFO` that stores sample number `k`: groups of three bytes, two
samples per group.  Used in the proofs only. -/
def byteIndex (k : Nat) : Nat :=
  3 * (k / 2) + 2 * (k % 2)

/-- The value that the loop of `unpackAccelerometerFIFO` stores in `val[k]`, read off
source lines 149 and 155.  Used in the proofs only; `unpackLoop_spec` relates it to the
loop. -/
def sampleAt (packedFIFO : List Nat) (k : Nat) : Nat :=
  if k % 2 = 1 then
    ((packedFIFO.getD (byteIndex k - 1) 0 &&& (0x0f <<< 8)) ||| packedFIFO.getD (byteIndex k) 0)
      % 65536
  else
    ((packedFIFO.getD (byteIndex k) 0 <<< 4)
      ||| ((packedFIFO.getD (byteIndex k + 1) 0 &&& 0xf0) >>> 4)) % 65536

/-- Number of loop iterations of `unpackAccelerometerFIFO` for a byte count `B`: two per
full group of three bytes, one more for a trailing part of a group. -/
def sampleCount (B : Nat) : Nat :=
  2 * (B / 3) + (if B % 3 ≠ 0 then 1 else 0)

/-- The three buffers that `main` keeps as locals (source lines 254-256). -/
structure Buffers where
  accelerometerFIFO : accelerometerBuf_t
  accelerometerBuf : accelerometerBuf_t
  accelerometerMax : accelerometerBuf_t
deriving DecidableEq, Repr

/-- The call `processAccelerometerBuf(&accelerometerFIFO, &accelerometerBuf)` of source
line 271 on the locals of `main`: the function assigns only through its second pointer,
so the other two buffers are handed on as they are. -/
def callBuf (b : Buffers) : Except Fault Buffers := do
  let buf ← processAccelerometerBuf b.accelerometerFIFO b.accelerometerBuf
  .ok { b with accelerometerBuf := buf }

/-- The call `processAccelerometerMax(&accelerometerFIFO, &accelerometerMax)` of source
line 272 on the locals of `main`: the function assigns only through its second pointer,
so the other two buffers are handed on as they are. -/
def callMax (b : Buffers) : Except Fault Buffers := do
  let mx ← processAccelerometerMax b.accelerometerFIFO b.accelerometerMax
  .ok { b with accelerometerMax := mx }

/-- The state invariant of the Top-K buffer: 32 slots, a count of at most 32, the first
`numVals` entries in non-increasing order, and every unused slot zero. -/
def topKInvariant (mx : accelerometerBuf_t) : Prop :=
  mx.val.length = 32 ∧ mx.numVals ≤ 32
    ∧ List.Sorted (fun a b => a ≥ b) (mx.val.take mx.numVals)
    ∧ ∀ x ∈ mx.val.drop mx.numVals, x = 0

end Fitbit

namespace Fitbit

/-! ## Basic facts about the bounds-checked accesses -/

theorem rd_of_getElem? {a : List Nat} {i : Nat} {v : Nat} (h : a[i]? = some v) :
    rd a (i : Int) = .ok v := by
  simp [rd, h]

theorem wr_of_lt {a : List Nat} {i : Nat} (v : Nat) (h : i < a.length) :
    wr a (i : Int) v = .ok (a.set i v) := by
  simp [wr, h]

/-! ## The retention window: one call of `processAccelerometerBuf` -/

theorem set_prefix (T V : List Nat) (i x : Nat) (hi : i < V.length) (hT : T[i]? = some x) :
    (T.take i ++ V.drop i).set i x = T.take (i + 1) ++ V.drop (i + 1) := by
  have hiT : i < T.length := by
    rcases Nat.lt_or_ge i T.length with h | h
    · exact h
    · rw [List.getElem?_eq_none h] at hT; cases hT
  have hx : T[i] = x := by
    rw [List.getElem?_eq_getElem hiT] at hT
    exact Option.some.inj hT
  have h1 : (T.take i).length = i := by simp [List.length_take]; omega
  have h2 : V.drop i = V[i] :: V.drop (i + 1) := by
    simp
  have h3 : T.take (i + 1) = T.take i ++ [x] := by
    rw [← hx]; simp
  rw [h3, List.append_assoc, List.set_append, h1]
  simp
  rw [h2]
  rfl

theorem toInt8_small (i : Nat) (h : i < 127) : toInt8 ((i : Int) + 1) = ((i + 1 : Nat) : Int) := by
  unfold toInt8; omega

theorem bufLoop_spec (fifo : accelerometerBuf_t) (n nfb : Nat) (V T : List Nat)
    (hV : V.length = 32) (hn : n ≤ 32) (hnfb : nfb ≤ n) (hm : fifo.numVals ≤ fifo.val.length)
    (htot : nfb + fifo.numVals ≤ 32)
    (hT : T = (V.drop (n - nfb)).take nfb ++ fifo.val.take fifo.numVals) :
    ∀ (k i fuel : Nat), i + k = nfb + fifo.numVals → k < fuel →
      bufLoop fifo (nfb : Int) fuel (i : Int) ((i - nfb : Nat) : Int)
          { numVals := n, val := T.take i ++ V.drop i }
        = .ok (((nfb + fifo.numVals : Nat) : Int),
            { numVals := n, val := T ++ V.drop (nfb + fifo.numVals) }) := by
  have hTlen : T.length = nfb + fifo.numVals := by
    rw [hT]; simp [List.length_take, List.length_drop, hV]; omega
  intro k
  induction k with
  | zero =>
    intro i fuel hik hfuel
    obtain ⟨fuel, rfl⟩ : ∃ f, fuel = f + 1 := ⟨fuel - 1, by omega⟩
    have hi : i = nfb + fifo.numVals := by omega
    subst hi
    have : T.take (nfb + fifo.numVals) = T := by
      rw [← hTlen]; exact List.take_length T
    have hc : ¬ (((nfb + fifo.numVals : Nat) : Int) < (nfb : Int) + (fifo.numVals : Int)) := by
      omega
    rw [bufLoop, if_neg hc, this]
  | succ k ih =>
    intro i fuel hik hfuel
    obtain ⟨fuel, rfl⟩ : ∃ f, fuel = f + 1 := ⟨fuel - 1, by omega⟩
    have hi : i < nfb + fifo.numVals := by omega
    have hlen : (T.take i ++ V.drop i).length = 32 := by
      simp [List.length_take, List.length_drop, hV, hTlen]; omega
    have hcond : (i : Int) < (nfb : Int) + (fifo.numVals : Int) := by omega
    have hiT : i < T.length := by omega
    obtain ⟨x, hx⟩ : ∃ x, T[i]? = some x := ⟨T[i], List.getElem?_eq_getElem hiT⟩
    have hset := set_prefix T V i x (by omega) hx
    have e1 : min nfb (32 - (n - nfb)) = nfb := by omega
    have e2 : min fifo.numVals fifo.val.length = fifo.numVals := by omega
    have e3 : min i (nfb + fifo.numVals) = i := by omega
    have hwr := wr_of_lt x (show i < (T.take i ++ V.drop i).length by omega)
    have hinc := toInt8_small i (by omega)
    rw [bufLoop, if_pos hcond]
    by_cases hlt : i < nfb
    · have hlt' : (i : Int) < (nfb : Int) := by omega
      rw [if_pos hlt']
      have hidx : ((n : Int) - (nfb : Int) + (i : Int)) = ((n - nfb + i : Nat) : Int) := by
        omega
      have hread : (T.take i ++ V.drop i)[n - nfb + i]? = some x := by
        rw [← hx, hT]
        simp [List.getElem?_append, List.getElem?_take, List.getElem?_drop,
          List.length_take, List.length_drop, hV, hlt]
        simp only [e1, e2, e3]
        rw [if_pos (by omega)]
        congr 1
        omega
      simp only [hidx, rd_of_getElem? hread, hwr, bind, Except.bind, hset, hinc]
      have := ih (i + 1) fuel (by omega) (by omega)
      rw [show i + 1 - nfb = i - nfb by omega] at this
      exact this
    · have hlt' : ¬ (i : Int) < (nfb : Int) := by omega
      rw [if_neg hlt']
      have hread : fifo.val[i - nfb]? = some x := by
        rw [← hx, hT]
        simp [List.getElem?_append, List.getElem?_take, List.getElem?_drop,
          List.length_take, List.length_drop, hV, hlt]
        simp only [e1]
        rw [if_pos (by omega)]
      have hinc2 := toInt8_small (i - nfb) (by omega)
      simp only [rd_of_getElem? hread, hwr, bind, Except.bind, hset, hinc, hinc2]
      have := ih (i + 1) fuel (by omega) (by omega)
      rw [show i + 1 - nfb = i - nfb + 1 by omega] at this
      exact this

theorem processAccelerometerBuf_eq (fifo buf : accelerometerBuf_t)
    (hV : buf.val.length = 32) (hn : buf.numVals ≤ 32)
    (hF : fifo.numVals ≤ fifo.val.length) (hm : fifo.numVals ≤ 32) :
    processAccelerometerBuf fifo buf
      = .ok { numVals := min (buf.numVals + fifo.numVals) 32,
              val := (buf.val.drop (buf.numVals - min buf.numVals (32 - fifo.numVals))).take
                        (min buf.numVals (32 - fifo.numVals))
                      ++ fifo.val.take fifo.numVals
                      ++ buf.val.drop (min (buf.numVals + fifo.numVals) 32) } := by
  obtain ⟨n, V⟩ := buf
  simp only at hV hn ⊢
  have hnfb : (if (n : Int) < 32 - (fifo.numVals : Int) then toInt16 (n : Int)
      else toInt16 (32 - (fifo.numVals : Int)))
      = ((min n (32 - fifo.numVals) : Nat) : Int) := by
    unfold toInt16
    split_ifs <;> omega
  have htot : min n (32 - fifo.numVals) + fifo.numVals = min (n + fifo.numVals) 32 := by
    omega
  have hnum : ((((min (n + fifo.numVals) 32 : Nat) : Int)) % 65536).toNat
      = min (n + fifo.numVals) 32 := by omega
  have h := bufLoop_spec fifo n (min n (32 - fifo.numVals)) V _ hV hn (by omega) (by omega)
    (by omega) rfl (min n (32 - fifo.numVals) + fifo.numVals) 0 33 (by omega) (by omega)
  simp only [List.take_zero, List.nil_append, List.drop_zero, Nat.zero_sub, Nat.cast_zero,
    htot] at h
  simp only [processAccelerometerBuf, hnfb, h, bind, Except.bind, htot, hnum]

theorem contents_length (b : accelerometerBuf_t) (h : wellFormed b) :
    (contents b).length = b.numVals := by
  obtain ⟨h1, h2⟩ := h
  simp [contents, List.length_take, h1, h2]

theorem processAccelerometerBuf_contents (fifo buf : accelerometerBuf_t)
    (hbuf : wellFormed buf) (hfifo : wellFormed fifo) :
    ∃ w, processAccelerometerBuf fifo buf = .ok w ∧ wellFormed w
      ∧ w.numVals = min (buf.numVals + fifo.numVals) 32
      ∧ contents w = (contents buf ++ contents fifo).drop (buf.numVals + fifo.numVals - 32) := by
  obtain ⟨hV, hn⟩ := hbuf
  obtain ⟨hF, hm⟩ := hfifo
  refine ⟨_, processAccelerometerBuf_eq fifo buf hV hn (by omega) hm, ⟨?_, ?_⟩, rfl, ?_⟩
  · simp [List.length_take, List.length_drop, hV, hF]; omega
  · simp only; omega
  · have hlenT : ((buf.val.drop (buf.numVals - min buf.numVals (32 - fifo.numVals))).take
        (min buf.numVals (32 - fifo.numVals)) ++ fifo.val.take fifo.numVals).length
        = min (buf.numVals + fifo.numVals) 32 := by
      simp [List.length_take, List.length_drop, hV, hF]; omega
    have hd : buf.numVals - min buf.numVals (32 - fifo.numVals)
        = buf.numVals + fifo.numVals - 32 := by omega
    simp only [contents]
    rw [List.take_append_eq_append_take, hlenT, Nat.sub_self, List.take_zero,
      List.append_nil, List.take_of_length_le (le_of_eq hlenT)]
    rw [List.drop_append_of_le_length (by simp [List.length_take, hV]; omega),
      List.drop_take, hd]
    congr 2
    omega

/-! ## The retention window over a sequence of batches -/

theorem feedBuf_spec : ∀ (batches : List accelerometerBuf_t) (w : accelerometerBuf_t)
    (S : List Nat), (∀ b ∈ batches, wellFormed b) → wellFormed w →
    w.numVals = min S.length 32 → contents w = S.drop (S.length - 32) →
    ∃ r, feedBuf batches w = .ok r ∧ wellFormed r
      ∧ r.numVals = min (S ++ allSamples batches).length 32
      ∧ contents r = (S ++ allSamples batches).drop ((S ++ allSamples batches).length - 32)
  | [], w, S, _, hw, hn, hc => by
    refine ⟨w, rfl, hw, ?_, ?_⟩
    · simpa [allSamples] using hn
    · simpa [allSamples] using hc
  | b :: bs, w, S, hb, hw, hn, hc => by
    have hbw : wellFormed b := hb b (List.mem_cons_self _ _)
    obtain ⟨w1, h1, hw1, hn1, hc1⟩ := processAccelerometerBuf_contents b w hw hbw
    have hlenb := contents_length b hbw
    have hn1' : w1.numVals = min (S ++ contents b).length 32 := by
      rw [hn1, List.length_append, hlenb, hn]; omega
    have hc1' : contents w1 = (S ++ contents b).drop ((S ++ contents b).length - 32) := by
      rw [hc1, hc, List.length_append, hlenb, hn,
        ← List.drop_append_of_le_length (by omega), List.drop_drop]
      congr 1
      omega
    obtain ⟨r, h2, hr, hnr, hcr⟩ := feedBuf_spec bs w1 (S ++ contents b)
      (fun x hx => hb x (List.mem_cons_of_mem _ hx)) hw1 hn1' hc1'
    refine ⟨r, ?_, hr, ?_, ?_⟩
    · simp only [feedBuf, h1, bind, Except.bind, h2]
    · simpa [allSamples, List.append_assoc] using hnr
    · simpa [allSamples, List.append_assoc] using hcr

/-! ## The retention window: a batch that fills the window -/

theorem bufLoop_fill_only (fifo : accelerometerBuf_t) (n : Nat) (V : List Nat)
    (hV : V.length = 32) (hF : fifo.val.length = 32) (hm : 32 ≤ fifo.numVals) :
    ∀ (k i fuel : Nat), i + k = 32 → k < fuel →
      bufLoop fifo (32 - (fifo.numVals : Int)) fuel (i : Int) (i : Int)
          { numVals := n, val := fifo.val.take i ++ V.drop i }
        = .ok (32, { numVals := n, val := fifo.val }) := by
  intro k
  induction k with
  | zero =>
    intro i fuel hik hfuel
    obtain ⟨fuel, rfl⟩ : ∃ f, fuel = f + 1 := ⟨fuel - 1, by omega⟩
    have hi : i = 32 := by omega
    subst hi
    have h1 : fifo.val.take 32 = fifo.val := by rw [← hF]; exact List.take_length _
    have h2 : V.drop 32 = [] := List.drop_eq_nil_of_le (by omega)
    have hc : ¬ ((32 : Nat) : Int) < 32 - (fifo.numVals : Int) + (fifo.numVals : Int) := by
      omega
    rw [bufLoop, if_neg hc, h1, h2, List.append_nil]
    rfl
  | succ k ih =>
    intro i fuel hik hfuel
    obtain ⟨fuel, rfl⟩ : ∃ f, fuel = f + 1 := ⟨fuel - 1, by omega⟩
    have hc : (i : Int) < 32 - (fifo.numVals : Int) + (fifo.numVals : Int) := by omega
    have hc2 : ¬ (i : Int) < 32 - (fifo.numVals : Int) := by omega
    have hiF : i < fifo.val.length := by omega
    have hx : fifo.val[i]? = some fifo.val[i] := List.getElem?_eq_getElem hiF
    have hset := set_prefix fifo.val V i _ (by omega) hx
    have hwr := wr_of_lt fifo.val[i]
      (show i < (fifo.val.take i ++ V.drop i).length by
        simp [List.length_take, List.length_drop, hV, hF]; omega)
    have hinc := toInt8_small i (by omega)
    rw [bufLoop, if_pos hc, if_neg hc2]
    simp only [rd_of_getElem? hx, hwr, hset, bind, Except.bind, hinc]
    exact ih (i + 1) fuel (by omega) (by omega)

theorem processAccelerometerBuf_full_batch (fifo buf : accelerometerBuf_t)
    (hV : buf.val.length = 32) (hF : fifo.val.length = 32) (hm : 32 ≤ fifo.numVals)
    (hm2 : fifo.numVals ≤ 32800) :
    processAccelerometerBuf fifo buf = .ok { numVals := 32, val := fifo.val } := by
  have hsel : (if (buf.numVals : Int) < 32 - (fifo.numVals : Int)
      then toInt16 (buf.numVals : Int) else toInt16 (32 - (fifo.numVals : Int)))
      = 32 - (fifo.numVals : Int) := by
    unfold toInt16
    split_ifs <;> omega
  have h := bufLoop_fill_only fifo buf.numVals buf.val hV hF hm 32 0 33 (by omega)
    (by omega)
  simp only [List.take_zero, List.nil_append, List.drop_zero, Nat.cast_zero] at h
  simp only [processAccelerometerBuf, hsel, h, bind, Except.bind]
  rfl

/-! ## The Top-K buffer: one run of the inner loop -/

theorem eq_replicate_zero (l : List Nat) (h : ∀ x ∈ l, x = 0) :
    l = List.replicate l.length 0 := by
  induction l with
  | nil => rfl
  | cons a l ih =>
    have ha : a = 0 := h a (List.mem_cons_self _ _)
    have := ih (fun x hx => h x (List.mem_cons_of_mem _ hx))
    rw [List.length_cons, List.replicate_succ, ← this, ha]

theorem mem_drop_mono (l : List Nat) (k k' : Nat) (hk : k ≤ k') (x : Nat)
    (hx : x ∈ l.drop k') : x ∈ l.drop k := by
  obtain ⟨d, rfl⟩ : ∃ d, k' = k + d := ⟨k' - k, by omega⟩
  rw [← List.drop_drop] at hx
  exact List.mem_of_mem_drop hx

theorem maxInner_push (fifo : accelerometerBuf_t) (iFIFO n' : Nat) :
    ∀ (rest pre : List Nat) (v fuel : Nat), pre.length + rest.length = 32 →
      rest.length < fuel → (∀ x ∈ (v :: rest).drop (n' + 1 - pre.length), x = 0) →
      maxInner fifo iFIFO fuel pre.length v true { numVals := n', val := pre ++ rest }
        = .ok { numVals := n', val := pre ++ (v :: rest).take rest.length } := by
  intro rest
  induction rest with
  | nil =>
    intro pre v fuel hlen hfuel _
    obtain ⟨fuel, rfl⟩ : ∃ f, fuel = f + 1 := ⟨fuel - 1, by omega⟩
    simp only [List.length_nil, Nat.add_zero] at hlen
    simp [maxInner, hlen]
  | cons b rest ih =>
    intro pre v fuel hlen hfuel hz
    obtain ⟨fuel, rfl⟩ : ∃ f, fuel = f + 1 := ⟨fuel - 1, by omega⟩
    simp only [List.length_cons] at hlen hfuel
    by_cases hc : pre.length ≤ n'
    · have hcond : pre.length < 32 ∧ pre.length ≤ n' := ⟨by omega, hc⟩
      have hrd : (pre ++ b :: rest)[pre.length]? = some b := by
        rw [List.getElem?_append_right (le_refl _)]; simp
      have hwr := wr_of_lt v (show pre.length < (pre ++ b :: rest).length by simp)
      have hset : (pre ++ b :: rest).set pre.length v = (pre ++ [v]) ++ rest := by simp
      rw [maxInner, if_pos hcond]
      simp only [if_true, rd_of_getElem? hrd, hwr, hset, bind, Except.bind]
      have := ih (pre ++ [v]) b fuel (by simp; omega) (by omega) (by
        intro x hx
        apply hz x
        have e : n' + 1 - pre.length = (n' + 1 - (pre ++ [v]).length) + 1 := by
          simp; omega
        rw [e, List.drop_succ_cons]
        exact hx)
      simp only [List.length_append, List.length_singleton] at this
      rw [this]
      simp
    · have hcond : ¬ (pre.length < 32 ∧ pre.length ≤ n') := fun h => hc h.2
      rw [maxInner, if_neg hcond]
      have e : n' + 1 - pre.length = 0 := by omega
      rw [e, List.drop_zero] at hz
      have h1 := eq_replicate_zero (v :: b :: rest) hz
      have h2 := eq_replicate_zero (b :: rest)
        (fun x hx => hz x (List.mem_cons_of_mem _ hx))
      congr 2
      rw [h1, List.length_cons, List.take_replicate]
      rw [h2]
      simp

theorem maxInner_scan (fifo : accelerometerBuf_t) (iFIFO n s : Nat) (hn : n ≤ 32)
    (hs : fifo.val[iFIFO]? = some s) :
    ∀ (rest pre : List Nat) (pm fuel : Nat), pre.length + rest.length = 32 →
      rest.length < fuel → pre.length ≤ n → (∀ x ∈ rest.drop (n - pre.length), x = 0) →
      maxInner fifo iFIFO fuel pre.length pm false { numVals := n, val := pre ++ rest }
        = .ok { numVals := min (n + 1) 32,
                val := pre ++ (List.orderedInsert (fun a b => a ≥ b) s rest).take
                  rest.length } := by
  intro rest
  induction rest with
  | nil =>
    intro pre pm fuel hlen hfuel hpre _
    obtain ⟨fuel, rfl⟩ : ∃ f, fuel = f + 1 := ⟨fuel - 1, by omega⟩
    simp only [List.length_nil, Nat.add_zero] at hlen
    have e : min (n + 1) 32 = n := by omega
    simp [maxInner, hlen, e]
  | cons b rest ih =>
    intro pre pm fuel hlen hfuel hpre hz
    obtain ⟨fuel, rfl⟩ : ∃ f, fuel = f + 1 := ⟨fuel - 1, by omega⟩
    simp only [List.length_cons] at hlen hfuel
    have hcond : pre.length < 32 ∧ pre.length ≤ n := ⟨by omega, hpre⟩
    have hrd : (pre ++ b :: rest)[pre.length]? = some b := by
      rw [List.getElem?_append_right (le_refl _)]; simp
    rw [maxInner, if_pos hcond]
    simp only [Bool.false_eq_true, if_false, rd_of_getElem? hrd, rd_of_getElem? hs, bind,
      Except.bind]
    by_cases hge : s ≥ b
    · have hwr := wr_of_lt s (show pre.length < (pre ++ b :: rest).length by simp)
      have hset : (pre ++ b :: rest).set pre.length s = (pre ++ [s]) ++ rest := by simp
      have hnum : (if n < 32 then n + 1 else n) = min (n + 1) 32 := by
        split_ifs <;> omega
      rw [if_pos hge]
      simp only [hwr, hset, hnum]
      have := maxInner_push fifo iFIFO (min (n + 1) 32) rest (pre ++ [s]) b fuel
        (by simp; omega) (by omega) (by
          intro x hx
          apply hz x
          exact mem_drop_mono _ _ (min (n + 1) 32 + 1 - (pre ++ [s]).length)
            (by simp; omega) x hx)
      simp only [List.length_append, List.length_singleton] at this
      rw [this]
      simp [List.orderedInsert, hge]
    · rw [if_neg hge]
      have hb : b ≠ 0 := by omega
      have hlt : pre.length < n := by
        rcases Nat.lt_or_ge pre.length n with h | h
        · exact h
        · exfalso
          apply hb
          apply hz b
          have : n - pre.length = 0 := by omega
          rw [this]
          simp
      have := ih (pre ++ [b]) pm fuel (by simp; omega) (by omega) (by simp; omega) (by
        intro x hx
        apply hz x
        have e : n - pre.length = (n - (pre ++ [b]).length) + 1 := by simp; omega
        rw [e, List.drop_succ_cons]
        exact hx)
      simp only [List.length_append, List.length_singleton] at this
      have e2 : pre ++ b :: rest = pre ++ [b] ++ rest := by simp
      rw [e2, this]
      simp [List.orderedInsert, hge]

theorem maxInner_eq_insertOne (fifo mx : accelerometerBuf_t) (iFIFO s : Nat)
    (hmx : zeroTail mx) (hs : fifo.val[iFIFO]? = some s) :
    maxInner fifo iFIFO 33 0 0 false mx = .ok (insertOne s mx) := by
  obtain ⟨hlen, hn, hz⟩ := hmx
  have := maxInner_scan fifo iFIFO mx.numVals s hn hs mx.val [] 0 33 (by simp [hlen])
    (by omega) (by simp) (by simpa using hz)
  simp only [List.length_nil, List.nil_append, hlen] at this
  exact this

/-! ## The Top-K buffer: a batch and a sequence of batches -/

theorem zeroTail_insertOne (s : Nat) (mx : accelerometerBuf_t) (h : zeroTail mx) :
    zeroTail (insertOne s mx) := by
  obtain ⟨hlen, hn, hz⟩ := h
  have key : ∀ (l : List Nat) (n : Nat), (∀ x ∈ l.drop n, x = 0) →
      ∀ x ∈ (List.orderedInsert (fun a b => a ≥ b) s l).drop (n + 1), x = 0 := by
    intro l
    induction l with
    | nil => intro n _ x hx; simp at hx
    | cons b l ih =>
      intro n hz x hx
      by_cases hge : s ≥ b
      · rw [List.orderedInsert, if_pos hge, List.drop_succ_cons] at hx
        exact hz x hx
      · rw [List.orderedInsert, if_neg hge, List.drop_succ_cons] at hx
        cases n with
        | zero =>
          exfalso
          have : b = 0 := hz b (by simp)
          omega
        | succ n =>
          rw [List.drop_succ_cons] at hz
          exact ih n hz x hx
  refine ⟨?_, ?_, ?_⟩
  · simp [insertOne, List.length_take, List.orderedInsert_length, hlen]
  · simp [insertOne]
  · intro x hx
    simp only [insertOne] at hx
    rcases Nat.lt_or_ge mx.numVals 32 with h32 | h32
    · have e : min (mx.numVals + 1) 32 = mx.numVals + 1 := by omega
      rw [e, List.drop_take] at hx
      exact key mx.val mx.numVals hz x (List.mem_of_mem_take hx)
    · have e : min (mx.numVals + 1) 32 = 32 := by omega
      rw [e, List.drop_take] at hx
      simp at hx

theorem maxOuter_eq (fifo : accelerometerBuf_t) (hfifo : wellFormed fifo) :
    ∀ (k iFIFO fuel : Nat) (mx : accelerometerBuf_t), iFIFO + k = fifo.numVals → k < fuel →
      zeroTail mx →
      maxOuter fifo fuel iFIFO mx
        = .ok (((contents fifo).drop iFIFO).foldl (fun m s => insertOne s m) mx) := by
  obtain ⟨hF, hm⟩ := hfifo
  have hClen : (contents fifo).length = fifo.numVals := contents_length fifo ⟨hF, hm⟩
  intro k
  induction k with
  | zero =>
    intro iFIFO fuel mx hik hfuel _
    obtain ⟨fuel, rfl⟩ : ∃ f, fuel = f + 1 := ⟨fuel - 1, by omega⟩
    have : (contents fifo).drop iFIFO = [] := List.drop_eq_nil_of_le (by omega)
    simp [maxOuter, this, show ¬ iFIFO < fifo.numVals by omega]
  | succ k ih =>
    intro iFIFO fuel mx hik hfuel hmx
    obtain ⟨fuel, rfl⟩ : ∃ f, fuel = f + 1 := ⟨fuel - 1, by omega⟩
    have hi : iFIFO < fifo.numVals := by omega
    have hiC : iFIFO < (contents fifo).length := by omega
    have hs : fifo.val[iFIFO]? = some (contents fifo)[iFIFO] := by
      rw [← List.getElem?_eq_getElem hiC]
      simp [contents, List.getElem?_take, hi]
    have hd : (contents fifo).drop iFIFO
        = (contents fifo)[iFIFO] :: (contents fifo).drop (iFIFO + 1) := by simp
    rw [maxOuter, if_pos hi, maxInner_eq_insertOne fifo mx iFIFO _ hmx hs]
    simp only [bind, Except.bind]
    rw [ih (iFIFO + 1) fuel _ (by omega) (by omega) (zeroTail_insertOne _ mx hmx), hd]
    rfl

theorem zeroTail_foldl (l : List Nat) : ∀ (mx : accelerometerBuf_t), zeroTail mx →
    zeroTail (l.foldl (fun m s => insertOne s m) mx) := by
  induction l with
  | nil => intro mx h; exact h
  | cons a l ih => intro mx h; exact ih _ (zeroTail_insertOne a mx h)

theorem processAccelerometerMax_eq (fifo mx : accelerometerBuf_t) (hfifo : wellFormed fifo)
    (hmx : zeroTail mx) :
    processAccelerometerMax fifo mx
      = .ok ((contents fifo).foldl (fun m s => insertOne s m) mx) := by
  have := maxOuter_eq fifo hfifo fifo.numVals 0 (fifo.numVals + 1) mx (by omega) (by omega)
    hmx
  simpa [processAccelerometerMax] using this

theorem feedMax_eq : ∀ (batches : List accelerometerBuf_t) (mx : accelerometerBuf_t),
    (∀ b ∈ batches, wellFormed b) → zeroTail mx →
    feedMax batches mx = .ok ((allSamples batches).foldl (fun m s => insertOne s m) mx)
  | [], mx, _, _ => rfl
  | b :: bs, mx, hb, hmx => by
    have hbw : wellFormed b := hb b (List.mem_cons_self _ _)
    rw [feedMax, processAccelerometerMax_eq b mx hbw hmx]
    simp only [bind, Except.bind]
    rw [feedMax_eq bs _ (fun x hx => hb x (List.mem_cons_of_mem _ hx))
      (zeroTail_foldl _ mx hmx), allSamples, List.foldl_append]

/-! ## Insertion into a zero-padded list and the descending sort -/

theorem take_orderedInsert_take (s : Nat) : ∀ (l : List Nat) (k : Nat),
    (List.orderedInsert (fun a b => a ≥ b) s (l.take k)).take k
      = (List.orderedInsert (fun a b => a ≥ b) s l).take k := by
  intro l
  induction l with
  | nil => intro k; simp
  | cons b l ih =>
    intro k
    cases k with
    | zero => simp
    | succ k =>
      rw [List.take_succ_cons]
      by_cases hge : s ≥ b
      · simp only [List.orderedInsert, if_pos hge, List.take_succ_cons]
        congr 1
        cases k with
        | zero => simp
        | succ k => simp [List.take_succ_cons, List.take_take]
      · simp only [List.orderedInsert, if_neg hge, List.take_succ_cons]
        rw [ih k]

theorem orderedInsert_append_zeros (s : Nat) (Z : List Nat) (hZ : ∀ z ∈ Z, z = 0) :
    ∀ (A : List Nat), List.orderedInsert (fun a b => a ≥ b) s (A ++ Z)
      = List.orderedInsert (fun a b => a ≥ b) s A ++ Z := by
  intro A
  induction A with
  | nil =>
    cases Z with
    | nil => simp
    | cons z Z =>
      have : z = 0 := hZ z (List.mem_cons_self _ _)
      simp [List.orderedInsert, this]
  | cons a A ih =>
    by_cases hge : s ≥ a
    · simp [List.orderedInsert, hge]
    · rw [List.cons_append, List.orderedInsert, if_neg hge, ih, List.orderedInsert,
        if_neg hge, List.cons_append]

theorem foldl_insertOne_rep : ∀ (S : List Nat) (mx : accelerometerBuf_t) (A : List Nat),
    mx.val = (A ++ List.replicate 32 0).take 32 → mx.numVals = min A.length 32 →
    (S.foldl (fun m s => insertOne s m) mx).val
        = (S.foldl (fun acc s => List.orderedInsert (fun a b => a ≥ b) s acc) A
            ++ List.replicate 32 0).take 32
      ∧ (S.foldl (fun m s => insertOne s m) mx).numVals = min (A.length + S.length) 32 := by
  intro S
  induction S with
  | nil => intro mx A hv hn; simpa using ⟨hv, hn⟩
  | cons s S ih =>
    intro mx A hv hn
    have hv' : (insertOne s mx).val
        = (List.orderedInsert (fun a b => a ≥ b) s A ++ List.replicate 32 0).take 32 := by
      simp only [insertOne]
      rw [hv, take_orderedInsert_take,
        orderedInsert_append_zeros s _ (fun z hz => List.eq_of_mem_replicate hz)]
    have hn' : (insertOne s mx).numVals
        = min (List.orderedInsert (fun a b => a ≥ b) s A).length 32 := by
      simp only [insertOne, List.orderedInsert_length]
      omega
    obtain ⟨h1, h2⟩ := ih (insertOne s mx) _ hv' hn'
    refine ⟨h1, ?_⟩
    rw [List.foldl_cons, h2, List.orderedInsert_length, List.length_cons]
    congr 1
    omega

theorem foldl_orderedInsert_eq_insertionSort (S : List Nat) :
    S.foldl (fun acc s => List.orderedInsert (fun a b => a ≥ b) s acc) []
      = List.insertionSort (fun a b => a ≥ b) S := by
  have key : ∀ (S A : List Nat), List.Sorted (fun a b => a ≥ b) A →
      List.Sorted (fun a b => a ≥ b)
        (S.foldl (fun acc s => List.orderedInsert (fun a b => a ≥ b) s acc) A)
      ∧ List.Perm (S.foldl (fun acc s => List.orderedInsert (fun a b => a ≥ b) s acc) A)
          (A ++ S) := by
    intro S
    induction S with
    | nil => intro A hA; simpa using hA
    | cons s S ih =>
      intro A hA
      obtain ⟨h1, h2⟩ := ih _ (List.Sorted.orderedInsert s A hA)
      refine ⟨h1, h2.trans ?_⟩
      have := List.perm_orderedInsert (fun a b : Nat => a ≥ b) s A
      exact (this.append_right S).trans (by simpa using List.perm_middle.symm)
  obtain ⟨h1, h2⟩ := key S [] List.sorted_nil
  apply List.eq_of_perm_of_sorted _ h1 (List.sorted_insertionSort _ S)
  simp only [List.nil_append] at h2
  exact h2.trans (List.perm_insertionSort _ S).symm

theorem zeroTail_zeroBuf : zeroTail zeroBuf := by
  refine ⟨by simp [zeroBuf], by simp [zeroBuf], ?_⟩
  intro x hx
  exact List.eq_of_mem_replicate (List.mem_of_mem_drop hx)

theorem feedMax_zeroBuf (batches : List accelerometerBuf_t)
    (hb : ∀ b ∈ batches, wellFormed b) :
    ∃ r, feedMax batches zeroBuf = .ok r
      ∧ zeroTail r
      ∧ r.numVals = min 32 (allSamples batches).length
      ∧ r.val = (List.insertionSort (fun a b => a ≥ b) (allSamples batches)
          ++ List.replicate 32 0).take 32 := by
  refine ⟨_, feedMax_eq batches zeroBuf hb zeroTail_zeroBuf,
    zeroTail_foldl _ _ zeroTail_zeroBuf, ?_, ?_⟩
  · have := (foldl_insertOne_rep (allSamples batches) zeroBuf [] (by simp [zeroBuf])
      (by simp [zeroBuf])).2
    rw [this]; simp [Nat.min_comm]
  · have := (foldl_insertOne_rep (allSamples batches) zeroBuf [] (by simp [zeroBuf])
      (by simp [zeroBuf])).1
    rw [this, foldl_orderedInsert_eq_insertionSort]

/-! ## The sample codec: the loop for byte counts up to 48 -/

theorem rd_getD {a : List Nat} {i : Nat} (h : i < a.length) :
    rd a (i : Int) = .ok (a.getD i 0) := by
  apply rd_of_getElem?
  simp [List.getD, List.getElem?_eq_getElem h]

theorem unpackLoop_spec (p : List Nat) (B : Nat) (V T : List Nat) (hV : V.length = 32)
    (hB : B ≤ 48) (hp : 48 ≤ p.length)
    (hT : T = (List.range (sampleCount B)).map (sampleAt p)) :
    ∀ (j k fuel : Nat), k + j = sampleCount B → j < fuel →
      unpackLoop p B fuel (byteIndex k) { numVals := k, val := T.take k ++ V.drop k }
        = .ok { numVals := sampleCount B, val := T ++ V.drop (sampleCount B) } := by
  have hTlen : T.length = sampleCount B := by rw [hT]; simp
  have hcount : sampleCount B ≤ 32 := by unfold sampleCount; split_ifs <;> omega
  intro j
  induction j with
  | zero =>
    intro k fuel hk hfuel
    obtain ⟨fuel, rfl⟩ : ∃ f, fuel = f + 1 := ⟨fuel - 1, by omega⟩
    have hk' : k = sampleCount B := by omega
    have hexit : ¬ byteIndex k < B := by
      rw [hk']; unfold byteIndex sampleCount; split_ifs <;> omega
    have : T.take k = T := by rw [hk', ← hTlen]; exact List.take_length T
    rw [unpackLoop, if_neg hexit, this, hk']
  | succ j ih =>
    intro k fuel hk hfuel
    obtain ⟨fuel, rfl⟩ : ∃ f, fuel = f + 1 := ⟨fuel - 1, by omega⟩
    have hklt : k < sampleCount B := by omega
    have hcb : byteIndex k < B := by
      revert hklt; unfold byteIndex sampleCount; split_ifs <;> omega
    have hkT : k < T.length := by omega
    have hx : T[k]? = some (sampleAt p k) := by
      rw [hT, List.getElem?_map, List.getElem?_range hklt]; rfl
    have hset := set_prefix T V k (sampleAt p k) (by omega) hx
    have hwr := wr_of_lt (sampleAt p k)
      (show k < (T.take k ++ V.drop k).length by
        simp [List.length_take, List.length_drop, hV, hTlen]; omega)
    have hnum : (k + 1) % 65536 = k + 1 := by omega
    have hand : k &&& 1 = k % 2 := Nat.and_one_is_mod k
    rw [unpackLoop, if_pos hcb]
    simp only [hand]
    by_cases hodd : k % 2 = 1
    · have hne : k % 2 ≠ 0 := by omega
      rw [if_pos hne]
      have hidx : ((byteIndex k : Nat) : Int) - 1 = ((byteIndex k - 1 : Nat) : Int) := by
        have : 1 ≤ byteIndex k := by unfold byteIndex; omega
        omega
      have hr1 := rd_getD (a := p) (i := byteIndex k - 1) (by omega)
      have hr2 := rd_getD (a := p) (i := byteIndex k) (by omega)
      have hval : ((p.getD (byteIndex k - 1) 0 &&& (0x0f <<< 8)) ||| p.getD (byteIndex k) 0)
          % 65536 = sampleAt p k := by
        simp [sampleAt, hodd]
      have hnext : (byteIndex k + 1) % 256 = byteIndex (k + 1) := by
        unfold byteIndex at hcb ⊢; omega
      simp only [hidx, hr1, hr2, bind, Except.bind, hval, hwr, hset, hnum, hnext]
      exact ih (k + 1) fuel (by omega) (by omega)
    · have hne : ¬ k % 2 ≠ 0 := by omega
      rw [if_neg hne]
      have hidx : ((byteIndex k : Nat) : Int) + 1 = ((byteIndex k + 1 : Nat) : Int) := by
        omega
      have hr1 := rd_getD (a := p) (i := byteIndex k) (by omega)
      have hr2 := rd_getD (a := p) (i := byteIndex k + 1) (by
        unfold byteIndex at hcb ⊢; omega)
      have hval : ((p.getD (byteIndex k) 0 <<< 4)
          ||| ((p.getD (byteIndex k + 1) 0 &&& 0xf0) >>> 4)) % 65536 = sampleAt p k := by
        simp [sampleAt, hodd]
      have hnext : ((byteIndex k + 1) % 256 + 1) % 256 = byteIndex (k + 1) := by
        unfold byteIndex at hcb ⊢; omega
      simp only [hidx, hr1, hr2, bind, Except.bind, hval, hwr, hset, hnum, hnext]
      exact ih (k + 1) fuel (by omega) (by omega)

theorem unpackAccelerometerFIFO_eq (p : List Nat) (B : Nat) (fifo : accelerometerBuf_t)
    (hV : fifo.val.length = 32) (hB : B ≤ 48) (hp : 48 ≤ p.length) :
    unpackAccelerometerFIFO p B fifo
      = .ok { numVals := sampleCount B,
              val := (List.range (sampleCount B)).map (sampleAt p)
                ++ fifo.val.drop (sampleCount B) } := by
  have hcount : sampleCount B ≤ 32 := by unfold sampleCount; split_ifs <;> omega
  have := unpackLoop_spec p B fifo.val _ hV hB hp rfl (sampleCount B) 0 34 (by omega)
    (by omega)
  simpa [unpackAccelerometerFIFO, byteIndex] using this

theorem and_high_nibble_mask_of_byte (x : Nat) (hx : x < 256) : x &&& (0x0f <<< 8) = 0 := by
  apply Nat.eq_of_testBit_eq
  intro i
  rw [Nat.testBit_and, Nat.zero_testBit]
  by_cases hi : i < 8
  · have : (0x0f <<< 8 : Nat).testBit i = false := by
      interval_cases i <;> rfl
    rw [this, Bool.and_false]
  · have : x.testBit i = false := by
      apply Nat.testBit_lt_two_pow
      calc x < 256 := hx
        _ = 2 ^ 8 := by norm_num
        _ ≤ 2 ^ i := Nat.pow_le_pow_right (by norm_num) (by omega)
    rw [this, Bool.false_and]

theorem sampleAt_odd (p : List Nat) (k : Nat) (hk : k % 2 = 1)
    (hprev : p.getD (byteIndex k - 1) 0 < 256) (hcur : p.getD (byteIndex k) 0 < 256) :
    sampleAt p k = p.getD (3 * (k / 2) + 2) 0 := by
  have hb : byteIndex k = 3 * (k / 2) + 2 := by unfold byteIndex; omega
  rw [hb] at hprev hcur
  simp only [sampleAt, hk, if_true, hb, and_high_nibble_mask_of_byte _ hprev, Nat.zero_or]
  omega

/-! ## The two printing loops of `outputData` -/

theorem outputMaxLoop_eq (mx : accelerometerBuf_t) (hn : mx.numVals ≤ mx.val.length) :
    ∀ (k iteration fuel : Nat), iteration + k = mx.numVals → k < fuel →
      outputMaxLoop mx fuel iteration
        = .ok ((mx.val.take k).reverse.map OutputLine.value) := by
  intro k
  induction k with
  | zero =>
    intro iteration fuel hik hfuel
    obtain ⟨fuel, rfl⟩ : ∃ f, fuel = f + 1 := ⟨fuel - 1, by omega⟩
    simp [outputMaxLoop, show ¬ iteration < mx.numVals by omega]
  | succ k ih =>
    intro iteration fuel hik hfuel
    obtain ⟨fuel, rfl⟩ : ∃ f, fuel = f + 1 := ⟨fuel - 1, by omega⟩
    have hlt : iteration < mx.numVals := by omega
    have hk : k < mx.val.length := by omega
    have hidx : (mx.numVals : Int) - (iteration : Int) - 1 = ((k : Nat) : Int) := by omega
    have hrd : mx.val[k]? = some mx.val[k] := List.getElem?_eq_getElem hk
    rw [outputMaxLoop, if_pos hlt]
    simp only [hidx, rd_of_getElem? hrd, bind, Except.bind,
      ih (iteration + 1) fuel (by omega) (by omega)]
    have : mx.val.take (k + 1) = mx.val.take k ++ [mx.val[k]] := by simp
    rw [this, List.reverse_append]
    rfl

theorem outputBufLoop_eq (buf : accelerometerBuf_t) (hn : buf.numVals ≤ buf.val.length) :
    ∀ (k iteration fuel : Nat), iteration + k = buf.numVals → k < fuel →
      outputBufLoop buf fuel iteration
        = .ok (((buf.val.take buf.numVals).drop iteration).map OutputLine.value) := by
  have hlen : (buf.val.take buf.numVals).length = buf.numVals := by
    simp [List.length_take, hn]
  intro k
  induction k with
  | zero =>
    intro iteration fuel hik hfuel
    obtain ⟨fuel, rfl⟩ : ∃ f, fuel = f + 1 := ⟨fuel - 1, by omega⟩
    have : (buf.val.take buf.numVals).drop iteration = [] :=
      List.drop_eq_nil_of_le (by omega)
    simp [outputBufLoop, show ¬ iteration < buf.numVals by omega, this]
  | succ k ih =>
    intro iteration fuel hik hfuel
    obtain ⟨fuel, rfl⟩ : ∃ f, fuel = f + 1 := ⟨fuel - 1, by omega⟩
    have hlt : iteration < buf.numVals := by omega
    have hi : iteration < buf.val.length := by omega
    have hrd : buf.val[iteration]? = some buf.val[iteration] := List.getElem?_eq_getElem hi
    have hd : (buf.val.take buf.numVals).drop iteration
        = buf.val[iteration] :: (buf.val.take buf.numVals).drop (iteration + 1) := by
      rw [List.drop_eq_getElem_cons (by omega)]
      simp
    rw [outputBufLoop, if_pos hlt]
    simp only [rd_of_getElem? hrd, bind, Except.bind,
      ih (iteration + 1) fuel (by omega) (by omega), hd, List.map_cons]

/-! ## The Top-K buffer: the loops return for every buffer content -/

theorem maxInner_ok (fifo : accelerometerBuf_t) (iFIFO s : Nat)
    (hs : fifo.val[iFIFO]? = some s) :
    ∀ (k iMax pushMax : Nat) (newMax : Bool) (mx : accelerometerBuf_t),
      iMax + k = 32 → mx.val.length = 32 →
      ∃ r, maxInner fifo iFIFO (k + 1) iMax pushMax newMax mx = .ok r
        ∧ r.val.length = 32 ∧ (mx.numVals ≤ 32 → r.numVals ≤ 32) := by
  intro k
  induction k with
  | zero =>
    intro iMax pushMax newMax mx hik hlen
    have hc : ¬ (iMax < 32 ∧ iMax ≤ mx.numVals) := by omega
    exact ⟨mx, by rw [maxInner, if_neg hc], hlen, fun h => h⟩
  | succ k ih =>
    intro iMax pushMax newMax mx hik hlen
    by_cases hc : iMax < 32 ∧ iMax ≤ mx.numVals
    · have hi : iMax < mx.val.length := by omega
      have hrd : mx.val[iMax]? = some mx.val[iMax] := List.getElem?_eq_getElem hi
      rw [maxInner, if_pos hc]
      cases newMax with
      | true =>
        obtain ⟨r, h1, h2, h3⟩ := ih (iMax + 1) mx.val[iMax] true
          { mx with val := mx.val.set iMax pushMax } (by omega) (by simp [hlen])
        refine ⟨r, ?_, h2, h3⟩
        simp only [if_true, rd_of_getElem? hrd, wr_of_lt pushMax hi, bind, Except.bind]
        exact h1
      | false =>
        simp only [Bool.false_eq_true, if_false, rd_of_getElem? hrd, rd_of_getElem? hs,
          wr_of_lt s hi, bind, Except.bind]
        by_cases hge : s ≥ mx.val[iMax]
        · obtain ⟨r, h1, h2, h3⟩ := ih (iMax + 1) mx.val[iMax] true
            { numVals := if mx.numVals < 32 then mx.numVals + 1 else mx.numVals,
              val := mx.val.set iMax s } (by omega) (by simp [hlen])
          refine ⟨r, ?_, h2, fun h => h3 ?_⟩
          · rw [if_pos hge]; exact h1
          · simp only; split_ifs <;> omega
        · obtain ⟨r, h1, h2, h3⟩ := ih (iMax + 1) pushMax false mx (by omega) hlen
          refine ⟨r, ?_, h2, h3⟩
          rw [if_neg hge]; exact h1
    · exact ⟨mx, by rw [maxInner, if_neg hc], hlen, fun h => h⟩

theorem maxOuter_ok (fifo : accelerometerBuf_t) (hF : fifo.numVals ≤ fifo.val.length) :
    ∀ (k iFIFO : Nat) (mx : accelerometerBuf_t), iFIFO + k = fifo.numVals →
      mx.val.length = 32 →
      ∃ r, maxOuter fifo (k + 1) iFIFO mx = .ok r
        ∧ r.val.length = 32 ∧ (mx.numVals ≤ 32 → r.numVals ≤ 32) := by
  intro k
  induction k with
  | zero =>
    intro iFIFO mx hik hlen
    exact ⟨mx, by rw [maxOuter, if_neg (by omega)], hlen, fun h => h⟩
  | succ k ih =>
    intro iFIFO mx hik hlen
    have hi : iFIFO < fifo.numVals := by omega
    have hs : fifo.val[iFIFO]? = some fifo.val[iFIFO] :=
      List.getElem?_eq_getElem (by omega)
    obtain ⟨r1, h1, h2, h3⟩ := maxInner_ok fifo iFIFO _ hs 32 0 0 false mx (by omega) hlen
    obtain ⟨r, h4, h5, h6⟩ := ih (iFIFO + 1) r1 (by omega) h2
    refine ⟨r, ?_, h5, fun h => h6 (h3 h)⟩
    rw [maxOuter, if_pos hi, h1]
    simp only [bind, Except.bind]
    exact h4

/-! ## The Top-K buffer: one sample, and the state invariant -/

theorem processAccelerometerMax_single (fifo mx : accelerometerBuf_t) (s : Nat)
    (hF : fifo.val.length = 32) (h1 : fifo.numVals = 1) (hs : fifo.val[0]? = some s)
    (hmx : zeroTail mx) :
    processAccelerometerMax fifo mx = .ok (insertOne s mx) := by
  have hc : contents fifo = [s] := by
    have h0 : 0 < fifo.val.length := by omega
    rw [List.getElem?_eq_getElem h0] at hs
    have hs' : fifo.val[0] = s := Option.some.inj hs
    cases hv : fifo.val with
    | nil => rw [hv] at h0; simp at h0
    | cons a l =>
      simp only [hv, List.getElem_cons_zero] at hs'
      simp [contents, h1, hv, hs']
  rw [processAccelerometerMax_eq fifo mx ⟨hF, by omega⟩ hmx, hc]
  rfl

theorem orderedInsert_at (s : Nat) : ∀ (l : List Nat) (i : Nat),
    (∀ j, j < i → ∀ v, l[j]? = some v → s < v) → (∃ b, l[i]? = some b ∧ s ≥ b) →
    List.orderedInsert (fun a b => a ≥ b) s l = l.take i ++ s :: l.drop i := by
  intro l
  induction l with
  | nil => intro i _ ⟨b, hb, _⟩; simp at hb
  | cons a l ih =>
    intro i hlt hge
    cases i with
    | zero =>
      obtain ⟨b, hb, hsb⟩ := hge
      simp only [List.getElem?_cons_zero, Option.some.injEq] at hb
      subst hb
      simp [List.orderedInsert, hsb]
    | succ i =>
      have ha : s < a := hlt 0 (by omega) a (by simp)
      have hna : ¬ s ≥ a := by omega
      rw [List.orderedInsert, if_neg hna, List.take_succ_cons, List.drop_succ_cons,
        List.cons_append]
      congr 1
      apply ih i
      · intro j hj v hv
        exact hlt (j + 1) (by omega) v (by simpa using hv)
      · obtain ⟨b, hb, hsb⟩ := hge
        exact ⟨b, by simpa using hb, hsb⟩

theorem orderedInsert_of_all_lt (s : Nat) : ∀ (l : List Nat), (∀ x ∈ l, s < x) →
    List.orderedInsert (fun a b => a ≥ b) s l = l ++ [s] := by
  intro l
  induction l with
  | nil => intro _; rfl
  | cons a l ih =>
    intro h
    have ha : ¬ s ≥ a := by
      have := h a (List.mem_cons_self _ _)
      omega
    rw [List.orderedInsert, if_neg ha, ih (fun x hx => h x (List.mem_cons_of_mem _ hx))]
    rfl

theorem sorted_of_topKInvariant (mx : accelerometerBuf_t) (h : topKInvariant mx) :
    List.Sorted (fun a b => a ≥ b) mx.val := by
  obtain ⟨_, _, hs, hz⟩ := h
  rw [← List.take_append_drop mx.numVals mx.val]
  unfold List.Sorted at hs ⊢
  rw [List.pairwise_append]
  refine ⟨hs, ?_, ?_⟩
  · rw [eq_replicate_zero _ hz]
    exact List.pairwise_replicate.mpr (Or.inr (le_refl 0))
  · intro a _ b hb
    rw [hz b hb]
    exact Nat.zero_le a

theorem topKInvariant_insertOne (s : Nat) (mx : accelerometerBuf_t) (h : topKInvariant mx) :
    topKInvariant (insertOne s mx) := by
  have hsorted := sorted_of_topKInvariant mx h
  obtain ⟨hlen, hn, _, hz⟩ := h
  obtain ⟨h1, h2, h3⟩ := zeroTail_insertOne s mx ⟨hlen, hn, hz⟩
  refine ⟨h1, h2, ?_, h3⟩
  have : List.Sorted (fun a b => a ≥ b) (List.orderedInsert (fun a b => a ≥ b) s mx.val) :=
    List.Sorted.orderedInsert s mx.val hsorted
  exact (this.sublist (List.take_sublist _ _)).sublist (List.take_sublist _ _)

theorem topKInvariant_foldl (l : List Nat) : ∀ (mx : accelerometerBuf_t),
    topKInvariant mx → topKInvariant (l.foldl (fun m s => insertOne s m) mx) := by
  induction l with
  | nil => intro mx h; exact h
  | cons a l ih => intro mx h; exact ih _ (topKInvariant_insertOne a mx h)

theorem topKInvariant_zeroBuf : topKInvariant zeroBuf := by
  obtain ⟨h1, h2, h3⟩ := zeroTail_zeroBuf
  exact ⟨h1, h2, by simp [zeroBuf, List.Sorted], h3⟩

/-! ## The sample codec on concrete groups -/

/-- C3: the group `[0xAB, 0xCD, 0xEF]` is decoded to the samples `0xABC` and `0xEF`; the
second sample is the third byte alone and not `0xDEF`, the value
`((b1 & 0x0F) << 8) | b2` that the packing convention asks for. -/
theorem unpack_group_ABCDEF :
    unpackAccelerometerFIFO [0xAB, 0xCD, 0xEF] 3 zeroBuf
      = .ok { numVals := 2, val := 0xABC :: 0xEF :: List.replicate 30 0 }
    ∧ (0xEF : Nat) ≠ ((0xCD &&& 0x0F) <<< 8) ||| 0xEF
    ∧ ((0xCD &&& 0x0F) <<< 8) ||| 0xEF = (0xDEF : Nat) := by
  refine ⟨by rfl, by decide, by decide⟩

/-- C4: with a 48-byte transport array of which 1 byte is valid the codec emits one
sample (not none), and with 4 valid bytes it emits three samples (not two): a trailing
byte that does not complete a group does start a sample, and the low nibble of that
sample comes from the array slot after the valid bytes (`0xAB0` over a zeroed array,
`0xABF` over an array of `0xFF`). -/
theorem unpack_trailing_byte_starts_sample :
    (unpackAccelerometerFIFO (0xAB :: List.replicate 47 0) 1 zeroBuf).map
        (fun r => r.numVals) = .ok 1
    ∧ (unpackAccelerometerFIFO (0xAB :: 0xCD :: 0xEF :: List.replicate 45 0) 3 zeroBuf).map
        (fun r => r.numVals) = .ok 2
    ∧ (unpackAccelerometerFIFO (0xAB :: 0xCD :: 0xEF :: 0x12 :: List.replicate 44 0) 4
        zeroBuf).map (fun r => r.numVals) = .ok 3
    ∧ (unpackAccelerometerFIFO (0xAB :: 0xCD :: 0xEF :: 0x12 :: List.replicate 44 0) 4
        zeroBuf).map (fun r => r.val.take 3) = .ok [0xABC, 0xEF, 0x120]
    ∧ (unpackAccelerometerFIFO (0xAB :: List.replicate 47 0) 1 zeroBuf).map
        (fun r => r.val.take 1) = .ok [0xAB0]
    ∧ (unpackAccelerometerFIFO (0xAB :: List.replicate 47 0xFF) 1 zeroBuf).map
        (fun r => r.val.take 1) = .ok [0xABF] := by
  refine ⟨by rfl, by rfl, by rfl, by rfl, by rfl, by rfl⟩

/-- C8: on an input that holds exactly one byte, with byte count 1, the codec reads
`packedFIFO[1]`, an index equal to the supplied byte count. -/
theorem unpack_reads_past_byte_count :
    unpackAccelerometerFIFO [0xAB] 1 zeroBuf = .error (.readOutOfBounds 1)
    ∧ unpackAccelerometerFIFO [0xAB, 0xCD, 0xEF, 0x12] 4 zeroBuf
        = .error (.readOutOfBounds 4) := by
  refine ⟨by rfl, by rfl⟩

set_option maxRecDepth 16384 in
/-- C9: the codec does not truncate to the capacity of its 32-slot output buffer.  For a
byte count of 51 over 51 bytes it goes on after 32 samples and stores a 33rd sample at
`val[32]`.  Such a count reaches the codec from `main`: when the input file cannot be
opened, `numBytes` keeps its uninitialised value and is passed on unclamped; with the
value 51 the 33rd iteration reads `packedFIFO[48]`, past the 48-byte transport array,
on its way to the same store. -/
theorem unpack_no_truncation_at_51 :
    unpackAccelerometerFIFO (List.replicate 51 0xFF) 51 zeroBuf
      = .error (.writeOutOfBounds 32)
    ∧ main none true (List.replicate 48 0xFF) 51 = .error (.readOutOfBounds 48) := by
  refine ⟨by decide, by decide⟩

/-- C5: with empty buffers and an input file holding the single batch
`[0x0F, 0x00, 0x00]`, one iteration of the driver loop (whatever the uninitialised
transport array and byte count held before) reports exhaustion (`rtnVal = 1`), decodes
the two samples 240 and 0, and leaves the retention window holding `240, 0` in decode
order with count 2 and the Top-K buffer holding `240, 0` (descending) with count 2. -/
theorem driverStep_single_batch (garbage : List Nat) (garbageCount : Nat) :
    driverStep (some [0x0F, 0x00, 0x00])
        { rtnVal := 0, bytes_read_from_file := 0, packedFIFO := garbage,
          numBytes := garbageCount, accelerometerFIFO := zeroBuf,
          accelerometerBuf := zeroBuf, accelerometerMax := zeroBuf }
      = .ok { rtnVal := 1, bytes_read_from_file := 0,
              packedFIFO := [0x0F, 0x00, 0x00] ++ garbage.drop 3, numBytes := 3,
              accelerometerFIFO := { numVals := 2, val := 240 :: 0 :: List.replicate 30 0 },
              accelerometerBuf := { numVals := 2, val := 240 :: 0 :: List.replicate 30 0 },
              accelerometerMax := { numVals := 2, val := 240 :: 0 :: List.replicate 30 0 } } := by
  have h1 : getAccelerometerFIFOFromFile (some [0x0F, 0x00, 0x00]) 0 garbage garbageCount
      = { rtnVal := 1, bytes_read_from_file := 0,
          packedFIFO := [0x0F, 0x00, 0x00] ++ garbage.drop 3, numBytes := 3 } := by
    simp [getAccelerometerFIFOFromFile]
  have h2 : unpackAccelerometerFIFO ([0x0F, 0x00, 0x00] ++ garbage.drop 3) 3 zeroBuf
      = .ok { numVals := 2, val := 240 :: 0 :: List.replicate 30 0 } := by
    simp [unpackAccelerometerFIFO, unpackLoop, rd, wr, zeroBuf, bind, Except.bind]
  have h3 : processAccelerometerBuf
      { numVals := 2, val := 240 :: 0 :: List.replicate 30 0 } zeroBuf
      = .ok { numVals := 2, val := 240 :: 0 :: List.replicate 30 0 } := by decide
  have h4 : processAccelerometerMax
      { numVals := 2, val := 240 :: 0 :: List.replicate 30 0 } zeroBuf
      = .ok { numVals := 2, val := 240 :: 0 :: List.replicate 30 0 } := by decide
  unfold driverStep
  simp only [h1]
  rw [h2]
  simp only [bind, Except.bind]
  rw [h3, h4]

set_option maxRecDepth 16384 in
/-- C10: when the input file cannot be opened (the transport returns -1), `main` still
runs the codec on its uninitialised locals, leaves the loop because `rtnVal` is not 0,
calls `outputData`, which writes both section headers, and returns 0.  Shown here for an
uninitialised byte count that happens to be 0, and for one that happens to be 3 over a
transport array of sevens, where two garbage samples are written as well. -/
theorem main_transport_unavailable_still_outputs (garbage : List Nat) :
    getAccelerometerFIFOFromFile none 0 garbage 0
      = { rtnVal := -1, bytes_read_from_file := 0, packedFIFO := garbage, numBytes := 0 }
    ∧ main none true garbage 0
      = .ok { exitCode := 0,
              output := some [OutputLine.header "--Sorted Max 32 Values--",
                              OutputLine.header "--Last 32 Values--"] }
    ∧ main none true (List.replicate 48 7) 3
      = .ok { exitCode := 0,
              output := some [OutputLine.header "--Sorted Max 32 Values--",
                              OutputLine.value 7, OutputLine.value 112,
                              OutputLine.header "--Last 32 Values--",
                              OutputLine.value 112, OutputLine.value 7] } := by
  have hu : unpackAccelerometerFIFO garbage 0 zeroBuf = .ok zeroBuf := by
    simp [unpackAccelerometerFIFO, unpackLoop, zeroBuf]
  have hb : processAccelerometerBuf zeroBuf zeroBuf = .ok zeroBuf := by decide
  have hm : processAccelerometerMax zeroBuf zeroBuf = .ok zeroBuf := by decide
  have ho : outputData true zeroBuf zeroBuf
      = .ok (some [OutputLine.header "--Sorted Max 32 Values--",
                   OutputLine.header "--Last 32 Values--"]) := by decide
  refine ⟨rfl, ?_, by decide⟩
  unfold main
  simp only [driverLoop, driverStep, getAccelerometerFIFOFromFile]
  rw [hu]
  simp only [bind, Except.bind]
  rw [hb, hm]
  simp only [ho]
  rfl

/-! ## The retention window: claims -/

/-- C2: starting from an empty retention window (count 0), after `processAccelerometerBuf`
has been applied to every batch of a finite sequence of batches (each a 32-slot buffer
holding at most 32 samples), the call sequence returns a window whose count is
`min 32 T` and whose first `numVals` entries are the last `min 32 T` samples of the
concatenation of all batches, in arrival order; when the batches total 40 samples these
are the samples 9..40. -/
theorem retention_window_holds_last_32 (batches : List accelerometerBuf_t)
    (w0 : accelerometerBuf_t) (hb : ∀ b ∈ batches, b.val.length = 32 ∧ b.numVals ≤ 32)
    (hw0 : w0.val.length = 32) (h0 : w0.numVals = 0) :
    ∃ r, feedBuf batches w0 = .ok r
      ∧ r.numVals = min 32 (allSamples batches).length
      ∧ r.val.take r.numVals
          = (allSamples batches).drop
              ((allSamples batches).length - min 32 (allSamples batches).length)
      ∧ ((allSamples batches).length = 40 →
          r.val.take r.numVals = (allSamples batches).drop 8) := by
  obtain ⟨r, h1, _, h2, h3⟩ := feedBuf_spec batches w0 [] hb ⟨hw0, by omega⟩
    (by simp [h0]) (by simp [contents, h0])
  simp only [List.nil_append] at h2 h3
  have h3' : r.val.take r.numVals = (allSamples batches).drop
      ((allSamples batches).length - min 32 (allSamples batches).length) := by
    have : (allSamples batches).length - min 32 (allSamples batches).length
        = (allSamples batches).length - 32 := by omega
    rw [this]; exact h3
  refine ⟨r, h1, by omega, h3', ?_⟩
  intro h40
  rw [h3', h40]
  rfl

/-- Witness for C2: a batch of 24 samples followed by a batch of 16 samples. -/
theorem retention_window_holds_last_32_witness :
    ∃ r, feedBuf [{ numVals := 24, val := List.range 32 },
                  { numVals := 16, val := (List.range 32).map (fun i => 100 + i) }] zeroBuf
          = .ok r
      ∧ r.numVals = 32
      ∧ r.val.take r.numVals = (List.range 24).drop 8
          ++ (List.range 16).map (fun i => 100 + i) := by
  obtain ⟨r, h1, h2, h3, _⟩ := retention_window_holds_last_32
    [{ numVals := 24, val := List.range 32 },
     { numVals := 16, val := (List.range 32).map (fun i => 100 + i) }] zeroBuf
    (by decide) (by decide) (by decide)
  exact ⟨r, h1, h2, h3⟩

/-- C7: for every retention window with count at most 32, every Top-K buffer and every
empty batch (`numVals = 0`), `processAccelerometerBuf` and `processAccelerometerMax`
return the buffer they were given: same count and same value in every slot. -/
theorem empty_batch_changes_nothing (fifo buf mx : accelerometerBuf_t)
    (hfifo : fifo.numVals = 0) (hV : buf.val.length = 32) (hn : buf.numVals ≤ 32) :
    processAccelerometerBuf fifo buf = .ok buf
    ∧ processAccelerometerMax fifo mx = .ok mx := by
  constructor
  · rw [processAccelerometerBuf_eq fifo buf hV hn (by omega) (by omega)]
    obtain ⟨n, V⟩ := buf
    simp only at hV hn ⊢
    have e1 : min n (32 - 0) = n := by omega
    have e2 : min (n + 0) 32 = n := by omega
    simp only [hfifo, e1, e2, Nat.sub_self, List.drop_zero, List.take_zero, List.append_nil,
      List.take_append_drop]
  · simp [processAccelerometerMax, maxOuter, hfifo]

/-- Witness for C7: a full window and a part-filled Top-K buffer. -/
theorem empty_batch_changes_nothing_witness :
    processAccelerometerBuf { numVals := 0, val := List.replicate 32 9 }
        { numVals := 32, val := List.range 32 }
      = .ok { numVals := 32, val := List.range 32 }
    ∧ processAccelerometerMax { numVals := 0, val := List.replicate 32 9 }
        { numVals := 3, val := 7 :: 5 :: 5 :: List.replicate 29 0 }
      = .ok { numVals := 3, val := 7 :: 5 :: 5 :: List.replicate 29 0 } :=
  empty_batch_changes_nothing { numVals := 0, val := List.replicate 32 9 }
    { numVals := 32, val := List.range 32 }
    { numVals := 3, val := 7 :: 5 :: 5 :: List.replicate 29 0 } rfl (by decide) (by decide)

/-! ## The Top-K buffer and the counts: claims -/

/-- C1: starting from the zero-initialised Top-K buffer, after `processAccelerometerMax`
has been applied to every batch of a finite sequence of batches (each a 32-slot buffer
holding at most 32 samples), the call sequence returns a buffer whose count is `min 32 T`
and whose first `numVals` entries are the first `min 32 T` elements of the descending
sort of all `T` samples: duplicates counted, largest at index 0, non-increasing. -/
theorem topK_holds_largest_32 (batches : List accelerometerBuf_t)
    (hb : ∀ b ∈ batches, b.val.length = 32 ∧ b.numVals ≤ 32) :
    ∃ r, feedMax batches zeroBuf = .ok r
      ∧ r.numVals = min 32 (allSamples batches).length
      ∧ r.val.take r.numVals
          = (List.insertionSort (fun a b => a ≥ b) (allSamples batches)).take
              (min 32 (allSamples batches).length)
      ∧ List.Sorted (fun a b => a ≥ b) (r.val.take r.numVals) := by
  obtain ⟨r, h1, _, h2, h3⟩ := feedMax_zeroBuf batches hb
  have hlen : (List.insertionSort (fun a b => a ≥ b) (allSamples batches)).length
      = (allSamples batches).length := List.length_insertionSort _ _
  have h4 : r.val.take r.numVals
      = (List.insertionSort (fun a b => a ≥ b) (allSamples batches)).take
          (min 32 (allSamples batches).length) := by
    rw [h2, h3, List.take_take, List.take_append_of_le_length (by omega)]
    congr 1
    omega
  refine ⟨r, h1, h2, h4, ?_⟩
  rw [h4]
  exact (List.sorted_insertionSort _ _).sublist (List.take_sublist _ _)

/-- Witness for C1: the batches `5, 3, 9` and `1, 9, 2`. -/
theorem topK_holds_largest_32_witness :
    ∃ r, feedMax [{ numVals := 3, val := 5 :: 3 :: 9 :: List.replicate 29 0 },
                  { numVals := 3, val := 1 :: 9 :: 2 :: List.replicate 29 0 }] zeroBuf
          = .ok r
      ∧ r.numVals = 6
      ∧ r.val.take r.numVals = [9, 9, 5, 3, 2, 1] := by
  obtain ⟨r, h1, h2, h3, _⟩ := topK_holds_largest_32
    [{ numVals := 3, val := 5 :: 3 :: 9 :: List.replicate 29 0 },
     { numVals := 3, val := 1 :: 9 :: 2 :: List.replicate 29 0 }] (by decide)
  exact ⟨r, h1, h2, h3⟩

/-- C6: when the batches (each a 32-slot buffer holding at most 32 samples) total fewer
than 32 samples, feeding them all to `processAccelerometerBuf` and to
`processAccelerometerMax` from the zero-initialised buffers returns a retention window
and a Top-K buffer whose counts both equal the total number of samples. -/
theorem counts_equal_total_below_32 (batches : List accelerometerBuf_t)
    (hb : ∀ b ∈ batches, b.val.length = 32 ∧ b.numVals ≤ 32)
    (hT : (allSamples batches).length < 32) :
    ∃ w m, feedBuf batches zeroBuf = .ok w ∧ feedMax batches zeroBuf = .ok m
      ∧ w.numVals = (allSamples batches).length
      ∧ m.numVals = (allSamples batches).length := by
  obtain ⟨m, h1, _, h2, _⟩ := feedMax_zeroBuf batches hb
  obtain ⟨w, h3, _, h4, _⟩ := feedBuf_spec batches zeroBuf [] hb
    ⟨by simp [zeroBuf], by simp [zeroBuf]⟩ (by simp [zeroBuf]) (by simp [contents, zeroBuf])
  simp only [List.nil_append] at h4
  exact ⟨w, m, h3, h1, by omega, by omega⟩

/-- Witness for C6: two batches of three samples each. -/
theorem counts_equal_total_below_32_witness :
    ∃ w m, feedBuf [{ numVals := 3, val := 5 :: 3 :: 9 :: List.replicate 29 0 },
                    { numVals := 3, val := 1 :: 9 :: 2 :: List.replicate 29 0 }] zeroBuf
          = .ok w
      ∧ feedMax [{ numVals := 3, val := 5 :: 3 :: 9 :: List.replicate 29 0 },
                 { numVals := 3, val := 1 :: 9 :: 2 :: List.replicate 29 0 }] zeroBuf
          = .ok m
      ∧ w.numVals = 6 ∧ m.numVals = 6 :=
  counts_equal_total_below_32
    [{ numVals := 3, val := 5 :: 3 :: 9 :: List.replicate 29 0 },
     { numVals := 3, val := 1 :: 9 :: 2 :: List.replicate 29 0 }] (by decide) (by decide)

/-! ## The sample codec: claims for byte counts up to 48 -/

/-- Within the transport maximum: for every byte count of at most 48, over a transport
array of at least 48 bytes and a 32-slot output buffer, the codec returns with a count
of at most 32 and a 32-slot buffer, so no sample is stored at index 32 or beyond. -/
theorem unpack_within_capacity_up_to_48 (packedFIFO : List Nat) (numBytes : Nat)
    (fifo : accelerometerBuf_t) (hV : fifo.val.length = 32) (hB : numBytes ≤ 48)
    (hp : 48 ≤ packedFIFO.length) :
    ∃ r, unpackAccelerometerFIFO packedFIFO numBytes fifo = .ok r
      ∧ r.numVals ≤ 32 ∧ r.val.length = 32 := by
  have hcount : sampleCount numBytes ≤ 32 := by unfold sampleCount; split_ifs <;> omega
  refine ⟨_, unpackAccelerometerFIFO_eq packedFIFO numBytes fifo hV hB hp, hcount, ?_⟩
  simp [List.length_drop, hV]
  omega

/-- The bound within the transport maximum at a full transport read of 48 bytes. -/
theorem unpack_within_capacity_up_to_48_witness :
    ∃ r, unpackAccelerometerFIFO (List.replicate 48 0xFF) 48 zeroBuf = .ok r
      ∧ r.numVals ≤ 32 ∧ r.val.length = 32 :=
  unpack_within_capacity_up_to_48 (List.replicate 48 0xFF) 48 zeroBuf (by decide)
    (by decide) (by decide)

/-- C20: for every byte count `B ≤ 48`, over a transport array of at least 48 bytes and
a 32-slot output buffer, `unpackAccelerometerFIFO` returns, and the count it leaves is
`2 * (B / 3) + (1 if B % 3 ≠ 0 else 0)`, which is at most 32 and is 32 for `B = 48`; the
buffer still has 32 slots, so every write was at an index in 0..31. -/
theorem unpack_sample_count (packedFIFO : List Nat) (numBytes : Nat)
    (fifo : accelerometerBuf_t) (hV : fifo.val.length = 32) (hB : numBytes ≤ 48)
    (hp : 48 ≤ packedFIFO.length) :
    ∃ r, unpackAccelerometerFIFO packedFIFO numBytes fifo = .ok r
      ∧ r.numVals = 2 * (numBytes / 3) + (if numBytes % 3 ≠ 0 then 1 else 0)
      ∧ r.numVals ≤ 32
      ∧ (numBytes = 48 → r.numVals = 32)
      ∧ r.val.length = 32 := by
  have hcount : sampleCount numBytes ≤ 32 := by unfold sampleCount; split_ifs <;> omega
  refine ⟨_, unpackAccelerometerFIFO_eq packedFIFO numBytes fifo hV hB hp, rfl, hcount,
    ?_, ?_⟩
  · intro h48
    simp [sampleCount, h48]
  · simp [List.length_drop, hV]
    omega

/-- Witness for C20: a read of 4 bytes, which leaves 3 samples. -/
theorem unpack_sample_count_witness :
    ∃ r, unpackAccelerometerFIFO (0xAB :: 0xCD :: 0xEF :: 0x12 :: List.replicate 44 0) 4
          zeroBuf = .ok r
      ∧ r.numVals = 3 ∧ r.numVals ≤ 32 ∧ r.val.length = 32 := by
  obtain ⟨r, h1, h2, h3, _, h5⟩ := unpack_sample_count
    (0xAB :: 0xCD :: 0xEF :: 0x12 :: List.replicate 44 0) 4 zeroBuf (by decide)
    (by decide) (by decide)
  exact ⟨r, h1, h2, h3, h5⟩

/-- C19: for every byte count of at most 48 over a transport array of at least 48 bytes
(each entry an 8-bit value) and a 32-slot output buffer, every odd-indexed sample the
codec stores, `val[k]` with `k` odd and `k < numVals`, is the third byte of its group,
`packedFIFO[3 * (k / 2) + 2]`, alone: the term `previousByte & (0x0f << 8)` of source
line 149 is zero for an 8-bit value, so the sample is below 256 and no bit of the
preceding byte reaches it. -/
theorem unpack_odd_sample_is_current_byte (packedFIFO : List Nat) (numBytes : Nat)
    (fifo : accelerometerBuf_t) (hV : fifo.val.length = 32) (hB : numBytes ≤ 48)
    (hp : 48 ≤ packedFIFO.length) (hbyte : ∀ x ∈ packedFIFO, x < 256) :
    ∃ r, unpackAccelerometerFIFO packedFIFO numBytes fifo = .ok r
      ∧ ∀ k, k < r.numVals → k % 2 = 1 →
          r.val[k]? = packedFIFO[3 * (k / 2) + 2]?
          ∧ r.val[k]? = some (sampleAt packedFIFO k)
          ∧ sampleAt packedFIFO k < 256 := by
  have hcount : sampleCount numBytes ≤ 32 := by unfold sampleCount; split_ifs <;> omega
  refine ⟨_, unpackAccelerometerFIFO_eq packedFIFO numBytes fifo hV hB hp, ?_⟩
  intro k hk hodd
  simp only at hk
  have hcb : 3 * (k / 2) + 2 < numBytes := by
    revert hk; unfold sampleCount; split_ifs <;> omega
  have hgetD : ∀ i, i < packedFIFO.length → packedFIFO.getD i 0 < 256 := by
    intro i hi
    apply hbyte
    rw [List.getD_eq_getElem _ _ hi]
    exact List.getElem_mem _
  have hb : byteIndex k = 3 * (k / 2) + 2 := by unfold byteIndex; omega
  have hs := sampleAt_odd packedFIFO k hodd (hgetD _ (by omega)) (hgetD _ (by omega))
  have hval : ((List.range (sampleCount numBytes)).map (sampleAt packedFIFO)
      ++ fifo.val.drop (sampleCount numBytes))[k]? = some (sampleAt packedFIFO k) := by
    rw [List.getElem?_append_left (by simpa using hk), List.getElem?_map,
      List.getElem?_range hk]
    rfl
  refine ⟨?_, hval, ?_⟩
  · rw [hval, hs, List.getElem?_eq_getElem (show 3 * (k / 2) + 2 < packedFIFO.length by omega),
      List.getD_eq_getElem _ _ (show 3 * (k / 2) + 2 < packedFIFO.length by omega)]
  · rw [hs]
    exact hgetD _ (by omega)

/-- Witness for C19: the group `0xAB, 0xCD, 0xEF`, whose second sample is `0xEF`. -/
theorem unpack_odd_sample_is_current_byte_witness :
    ∃ r, unpackAccelerometerFIFO (0xAB :: 0xCD :: 0xEF :: List.replicate 45 0) 3 zeroBuf
          = .ok r
      ∧ ∀ k, k < r.numVals → k % 2 = 1 →
          r.val[k]? = (0xAB :: 0xCD :: 0xEF :: List.replicate 45 0)[3 * (k / 2) + 2]?
          ∧ r.val[k]? = some (sampleAt (0xAB :: 0xCD :: 0xEF :: List.replicate 45 0) k)
          ∧ sampleAt (0xAB :: 0xCD :: 0xEF :: List.replicate 45 0) k < 256 :=
  unpack_odd_sample_is_current_byte (0xAB :: 0xCD :: 0xEF :: List.replicate 45 0) 3 zeroBuf
    (by decide) (by decide) (by decide) (by decide)

/-! ## The retention window: single-step claims -/

/-- C11, as stated, fails: for a 32-slot batch whose count field is 40000 (at least 32)
the `int16_t numValsFromBuf` wraps `32 - 40000` to 25568, the loop takes the
copy-from-window branch and reads `val[5 - 25568 + 0]` of the window, so no window with
count 32 is returned. -/
theorem full_batch_count_40000_faults :
    (32 : Nat) ≤ 40000
    ∧ processAccelerometerBuf { numVals := 40000, val := List.range 32 }
        { numVals := 5, val := List.replicate 32 7 }
      = .error (.readOutOfBounds (-25563)) := by
  refine ⟨by decide, by decide⟩

/-- C11, amended: for every 32-slot retention window (whatever its count) and every
32-slot batch whose count is at least 32 and at most 32800, `processAccelerometerBuf`
returns a window with count 32 whose 32 slots are slots 0..31 of the batch in order, so
no slot keeps a previous value; when the count is exactly 32 the window holds exactly
the samples of the batch, which are its last 32. -/
theorem full_batch_replaces_window (fifo buf : accelerometerBuf_t)
    (hV : buf.val.length = 32) (hF : fifo.val.length = 32) (hm : 32 ≤ fifo.numVals)
    (hm2 : fifo.numVals ≤ 32800) :
    ∃ w, processAccelerometerBuf fifo buf = .ok w
      ∧ w.numVals = 32
      ∧ w.val = fifo.val
      ∧ (fifo.numVals = 32 →
          w.val.take w.numVals
            = (contents fifo).drop ((contents fifo).length - 32)) := by
  refine ⟨_, processAccelerometerBuf_full_batch fifo buf hV hF hm hm2, rfl, rfl, ?_⟩
  intro h32
  have h1 : contents fifo = fifo.val := by
    unfold contents
    exact List.take_of_length_le (by omega)
  have h2 : fifo.val.take 32 = fifo.val := List.take_of_length_le (by omega)
  simp only [h1, h2, hF, Nat.sub_self, List.drop_zero]

/-- Witness for C11, amended: a part-filled window and a batch of exactly 32 samples. -/
theorem full_batch_replaces_window_witness :
    ∃ w, processAccelerometerBuf { numVals := 32, val := List.range 32 }
          { numVals := 5, val := List.replicate 32 7 } = .ok w
      ∧ w.numVals = 32
      ∧ w.val = List.range 32 := by
  obtain ⟨w, h1, h2, h3, _⟩ := full_batch_replaces_window
    { numVals := 32, val := List.range 32 } { numVals := 5, val := List.replicate 32 7 }
    (by decide) (by decide) (by decide) (by decide)
  exact ⟨w, h1, h2, h3⟩

/-- C14: for every window with count `n ≤ 32` holding `W` and every batch with count
`m ≤ 32` holding `F`, `processAccelerometerBuf` returns a window whose count is
`min (n + m) 32` and whose contents are the last `r = min n (32 - m)` entries of `W`
followed by all of `F`, which is the last `min (n + m) 32` entries of `W ++ F`: the
in-place shift has delivered every retained entry intact. -/
theorem retention_append_step (fifo buf : accelerometerBuf_t)
    (hV : buf.val.length = 32) (hn : buf.numVals ≤ 32)
    (hF : fifo.val.length = 32) (hm : fifo.numVals ≤ 32) :
    ∃ w, processAccelerometerBuf fifo buf = .ok w
      ∧ w.numVals = min (buf.numVals + fifo.numVals) 32
      ∧ w.val.take w.numVals
          = (buf.val.take buf.numVals).drop
              (buf.numVals - min buf.numVals (32 - fifo.numVals))
            ++ fifo.val.take fifo.numVals
      ∧ ((buf.val.take buf.numVals).drop
              (buf.numVals - min buf.numVals (32 - fifo.numVals))).length
          = min buf.numVals (32 - fifo.numVals)
      ∧ w.val.take w.numVals
          = (buf.val.take buf.numVals ++ fifo.val.take fifo.numVals).drop
              (buf.numVals + fifo.numVals - min (buf.numVals + fifo.numVals) 32) := by
  obtain ⟨w, h1, _, h2, h3⟩ := processAccelerometerBuf_contents fifo buf ⟨hV, hn⟩ ⟨hF, hm⟩
  simp only [contents] at h3
  have hd : buf.numVals + fifo.numVals - min (buf.numVals + fifo.numVals) 32
      = buf.numVals + fifo.numVals - 32 := by omega
  have hd2 : buf.numVals - min buf.numVals (32 - fifo.numVals)
      = buf.numVals + fifo.numVals - 32 := by omega
  have hlenW : (buf.val.take buf.numVals).length = buf.numVals := by
    simp [List.length_take, hV, hn]
  refine ⟨w, h1, h2, ?_, ?_, ?_⟩
  · rw [h3, hd2, List.drop_append_of_le_length (by omega)]
  · rw [List.length_drop, hlenW]; omega
  · rw [h3, hd]

/-- Witness for C14: a full window and a batch of 3 samples. -/
theorem retention_append_step_witness :
    ∃ w, processAccelerometerBuf { numVals := 3, val := 5 :: 3 :: 9 :: List.replicate 29 0 }
          { numVals := 32, val := List.range 32 } = .ok w
      ∧ w.numVals = 32
      ∧ w.val.take w.numVals = (List.range 32).drop 3 ++ [5, 3, 9] := by
  obtain ⟨w, h1, h2, h3, _, _⟩ := retention_append_step
    { numVals := 3, val := 5 :: 3 :: 9 :: List.replicate 29 0 }
    { numVals := 32, val := List.range 32 } (by decide) (by decide) (by decide) (by decide)
  exact ⟨w, h1, h2, h3⟩

/-! ## The renderer: claims -/

/-- C13: for every 32-slot Top-K buffer with count at most 32 whose first `numVals`
entries are in non-increasing order and every 32-slot retention window with count at
most 32, `outputData` (with the output file open) writes the first header, then the
Top-K entries `val[numVals-1], ..., val[0]` (the reverse of storage order, which is
non-decreasing), then the second header, then the window entries
`val[0], ..., val[numVals-1]` in storage order. -/
theorem outputData_sequence (buf mx : accelerometerBuf_t)
    (hbuf : buf.val.length = 32 ∧ buf.numVals ≤ 32)
    (hmx : mx.val.length = 32 ∧ mx.numVals ≤ 32)
    (hsorted : List.Sorted (fun a b => a ≥ b) (mx.val.take mx.numVals)) :
    outputData true buf mx
      = .ok (some (OutputLine.header "--Sorted Max 32 Values--"
          :: (mx.val.take mx.numVals).reverse.map OutputLine.value
          ++ OutputLine.header "--Last 32 Values--"
          :: (buf.val.take buf.numVals).map OutputLine.value))
    ∧ List.Sorted (fun a b => a ≤ b) (mx.val.take mx.numVals).reverse := by
  constructor
  · have h1 := outputMaxLoop_eq mx (by omega) mx.numVals 0 (mx.numVals + 1) (by omega)
      (by omega)
    have h2 := outputBufLoop_eq buf (by omega) buf.numVals 0 (buf.numVals + 1) (by omega)
      (by omega)
    simp only [outputData, if_true, h1, h2, bind, Except.bind, List.drop_zero]
  · unfold List.Sorted
    rw [List.pairwise_reverse]
    exact hsorted

/-- Witness for C13: a Top-K buffer holding `9, 5, 5` and a window holding `5, 9, 5`. -/
theorem outputData_sequence_witness :
    outputData true { numVals := 3, val := 5 :: 9 :: 5 :: List.replicate 29 0 }
        { numVals := 3, val := 9 :: 5 :: 5 :: List.replicate 29 0 }
      = .ok (some [OutputLine.header "--Sorted Max 32 Values--",
          OutputLine.value 5, OutputLine.value 5, OutputLine.value 9,
          OutputLine.header "--Last 32 Values--",
          OutputLine.value 5, OutputLine.value 9, OutputLine.value 5]) :=
  (outputData_sequence { numVals := 3, val := 5 :: 9 :: 5 :: List.replicate 29 0 }
    { numVals := 3, val := 9 :: 5 :: 5 :: List.replicate 29 0 }
    (by decide) (by decide) (by decide)).1

/-! ## The Top-K buffer: bounds and independence claims -/

/-- C18: for every 32-slot Top-K buffer with count at most 32 (count 32 included) and
every 32-slot batch of at most 32 samples, `processAccelerometerMax` returns without an
access outside the arrays: every read and write of the Top-K array is at an index in
0..31 (the guard `iMax < 32` stops the scan before index 32), and the buffer it returns
has 32 slots and a count of at most 32. -/
theorem processAccelerometerMax_in_bounds (fifo mx : accelerometerBuf_t)
    (hfifo : fifo.val.length = 32 ∧ fifo.numVals ≤ 32)
    (hmx : mx.val.length = 32 ∧ mx.numVals ≤ 32) :
    ∃ r, processAccelerometerMax fifo mx = .ok r ∧ r.val.length = 32 ∧ r.numVals ≤ 32 := by
  obtain ⟨r, h1, h2, h3⟩ := maxOuter_ok fifo (by omega) fifo.numVals 0 mx (by omega) hmx.1
  exact ⟨r, h1, h2, h3 hmx.2⟩

/-- Witness for C18: a full, unsorted Top-K buffer and a batch of 32 samples. -/
theorem processAccelerometerMax_in_bounds_witness :
    ∃ r, processAccelerometerMax { numVals := 32, val := List.range 32 }
          { numVals := 32, val := List.range 32 } = .ok r
      ∧ r.val.length = 32 ∧ r.numVals ≤ 32 :=
  processAccelerometerMax_in_bounds { numVals := 32, val := List.range 32 }
    { numVals := 32, val := List.range 32 } (by decide) (by decide)

/-- C12: for every 32-slot batch of at most 32 samples, every 32-slot retention window
with count at most 32 and every 32-slot Top-K buffer, calling `processAccelerometerBuf`
and then `processAccelerometerMax` returns the same three buffers as calling them in the
other order; each call returns, leaves the batch and the buffer of the other consumer as
they were, and puts into its own buffer what the function returns. -/
theorem consumers_commute (b : Buffers)
    (hfifo : b.accelerometerFIFO.val.length = 32 ∧ b.accelerometerFIFO.numVals ≤ 32)
    (hbuf : b.accelerometerBuf.val.length = 32 ∧ b.accelerometerBuf.numVals ≤ 32)
    (hmx : b.accelerometerMax.val.length = 32) :
    ∃ w m, processAccelerometerBuf b.accelerometerFIFO b.accelerometerBuf = .ok w
      ∧ processAccelerometerMax b.accelerometerFIFO b.accelerometerMax = .ok m
      ∧ callBuf b = .ok { b with accelerometerBuf := w }
      ∧ callMax b = .ok { b with accelerometerMax := m }
      ∧ (callBuf b >>= callMax)
          = .ok { accelerometerFIFO := b.accelerometerFIFO, accelerometerBuf := w,
                  accelerometerMax := m }
      ∧ (callMax b >>= callBuf) = (callBuf b >>= callMax) := by
  obtain ⟨w, hw, _⟩ := processAccelerometerBuf_contents b.accelerometerFIFO
    b.accelerometerBuf hbuf hfifo
  obtain ⟨m, hm, _⟩ := maxOuter_ok b.accelerometerFIFO (by omega)
    b.accelerometerFIFO.numVals 0 b.accelerometerMax (by omega) hmx
  have hm' : processAccelerometerMax b.accelerometerFIFO b.accelerometerMax = .ok m := hm
  refine ⟨w, m, hw, hm', ?_, ?_, ?_, ?_⟩
  · simp only [callBuf, hw, bind, Except.bind]
  · simp only [callMax, hm', bind, Except.bind]
  · simp only [callBuf, callMax, hw, hm', bind, Except.bind]
  · simp only [callBuf, callMax, hw, hm', bind, Except.bind]

/-- Witness for C12: a batch of three samples, a full window, a part-filled Top-K
buffer. -/
theorem consumers_commute_witness :
    (callMax { accelerometerFIFO := { numVals := 3, val := 5 :: 3 :: 9 :: List.replicate 29 0 },
               accelerometerBuf := { numVals := 32, val := List.range 32 },
               accelerometerMax := { numVals := 1, val := 4 :: List.replicate 31 0 } }
        >>= callBuf)
      = (callBuf { accelerometerFIFO :=
                     { numVals := 3, val := 5 :: 3 :: 9 :: List.replicate 29 0 },
                   accelerometerBuf := { numVals := 32, val := List.range 32 },
                   accelerometerMax := { numVals := 1, val := 4 :: List.replicate 31 0 } }
        >>= callMax) := by
  obtain ⟨_, _, _, _, _, _, _, h⟩ := consumers_commute
    { accelerometerFIFO := { numVals := 3, val := 5 :: 3 :: 9 :: List.replicate 29 0 },
      accelerometerBuf := { numVals := 32, val := List.range 32 },
      accelerometerMax := { numVals := 1, val := 4 :: List.replicate 31 0 } }
    (by decide) (by decide) (by decide)
  exact h

/-! ## The Top-K buffer: single-sample and invariant claims -/

/-- C15: for every Top-K buffer that satisfies the state invariant (32 slots, count
`n ≤ 32`, first `n` entries non-increasing, unused slots zero) and every one-sample batch
`[s]`, if `i` is the first index in `0..min n 31` with `s ≥ val[i]`, then
`processAccelerometerMax` returns a buffer with count `min (n + 1) 32` whose array is the
old array with `s` put in at index `i` and cut back to 32 slots: entries before `i` are
unchanged, `val[i] = s`, every old entry from index `i` on sits one slot further, and
the old entry that would land at index 32 is dropped.  A sample equal to stored entries
goes in front of them. -/
theorem topK_insert_one (fifo mx : accelerometerBuf_t) (s i : Nat)
    (hF : fifo.val.length = 32) (h1 : fifo.numVals = 1) (hs : fifo.val[0]? = some s)
    (hmx : topKInvariant mx) (hi : i ≤ min mx.numVals 31)
    (hge : ∃ b, mx.val[i]? = some b ∧ s ≥ b)
    (hfirst : ∀ j, j < i → ∀ v, mx.val[j]? = some v → s < v) :
    ∃ r, processAccelerometerMax fifo mx = .ok r
      ∧ r.numVals = min (mx.numVals + 1) 32
      ∧ r.val = (mx.val.take i ++ s :: mx.val.drop i).take 32
      ∧ (∀ j, j < i → r.val[j]? = mx.val[j]?)
      ∧ r.val[i]? = some s
      ∧ (∀ j, i < j → j < 32 → r.val[j]? = mx.val[j - 1]?) := by
  obtain ⟨hlen, hn, _, hz⟩ := hmx
  have hval : (insertOne s mx).val = (mx.val.take i ++ s :: mx.val.drop i).take 32 := by
    simp only [insertOne]
    rw [orderedInsert_at s mx.val i hfirst hge]
  have hti : (mx.val.take i).length = i := by
    rw [List.length_take, hlen]; omega
  refine ⟨_, processAccelerometerMax_single fifo mx s hF h1 hs ⟨hlen, hn, hz⟩, rfl, hval,
    ?_, ?_, ?_⟩
  · intro j hj
    rw [hval, List.getElem?_take_of_lt (by omega),
      List.getElem?_append_left (by omega), List.getElem?_take_of_lt hj]
  · rw [hval, List.getElem?_take_of_lt (by omega),
      List.getElem?_append_right (by omega), hti, Nat.sub_self,
      List.getElem?_cons_zero]
  · intro j hij hj
    rw [hval, List.getElem?_take_of_lt hj, List.getElem?_append_right (by omega), hti]
    obtain ⟨d, hd⟩ : ∃ d, j - i = d + 1 := ⟨j - i - 1, by omega⟩
    rw [hd, List.getElem?_cons_succ, List.getElem?_drop]
    congr 1
    omega

/-- Witness for C15: inserting 5 into a buffer holding `9, 5, 3`; the first index with
`5 ≥ val[i]` is 1, and the new 5 goes in front of the stored 5. -/
theorem topK_insert_one_witness :
    ∃ r, processAccelerometerMax { numVals := 1, val := 5 :: List.replicate 31 0 }
          { numVals := 3, val := 9 :: 5 :: 3 :: List.replicate 29 0 } = .ok r
      ∧ r.numVals = 4
      ∧ r.val = 9 :: 5 :: 5 :: 3 :: List.replicate 28 0 := by
  obtain ⟨r, h1, h2, h3, _⟩ := topK_insert_one
    { numVals := 1, val := 5 :: List.replicate 31 0 }
    { numVals := 3, val := 9 :: 5 :: 3 :: List.replicate 29 0 } 5 1
    (by decide) (by decide) (by decide)
    ⟨by decide, by decide, by decide, by decide⟩ (by decide) ⟨5, by decide, by decide⟩
    (by
      intro j hj v hv
      have hj0 : j = 0 := by omega
      subst hj0
      simp only [List.getElem?_cons_zero, Option.some.injEq] at hv
      omega)
  exact ⟨r, h1, h2, h3⟩

/-- C16: for every full Top-K buffer (32 slots, count 32) and every sample `s` strictly
smaller than all 32 stored values, `processAccelerometerMax` on the one-sample batch
`[s]` returns the buffer unchanged: count 32 and every slot as before. -/
theorem topK_full_rejects_smaller (fifo mx : accelerometerBuf_t) (s : Nat)
    (hF : fifo.val.length = 32) (h1 : fifo.numVals = 1) (hs : fifo.val[0]? = some s)
    (hlen : mx.val.length = 32) (hn : mx.numVals = 32) (hsmall : ∀ x ∈ mx.val, s < x) :
    processAccelerometerMax fifo mx = .ok mx := by
  have hz : zeroTail mx := by
    refine ⟨hlen, by omega, ?_⟩
    intro x hx
    rw [hn, List.drop_eq_nil_of_le (by omega)] at hx
    simp at hx
  rw [processAccelerometerMax_single fifo mx s hF h1 hs hz]
  obtain ⟨n, V⟩ := mx
  simp only at hlen hn hsmall
  simp only [insertOne, orderedInsert_of_all_lt s V hsmall, hn]
  rw [List.take_append_of_le_length (by omega), List.take_of_length_le (by omega)]
  rfl

/-- Witness for C16: the full buffer `32, 31, ..., 1` and the sample 0. -/
theorem topK_full_rejects_smaller_witness :
    processAccelerometerMax { numVals := 1, val := List.replicate 32 0 }
        { numVals := 32, val := (List.range 32).map (fun i => 32 - i) }
      = .ok { numVals := 32, val := (List.range 32).map (fun i => 32 - i) } :=
  topK_full_rejects_smaller { numVals := 1, val := List.replicate 32 0 }
    { numVals := 32, val := (List.range 32).map (fun i => 32 - i) } 0
    (by decide) (by decide) (by decide) (by decide) (by decide) (by decide)

/-- C17: the Top-K state invariant (32 slots, count at most 32, first `numVals` entries
non-increasing, unused slots zero) holds for the zero-initialised buffer, and for every
32-slot batch of at most 32 samples and every buffer that satisfies it,
`processAccelerometerMax` returns a buffer that satisfies it again. -/
theorem topK_invariant_preserved (fifo mx : accelerometerBuf_t)
    (hfifo : fifo.val.length = 32 ∧ fifo.numVals ≤ 32) (hmx : topKInvariant mx) :
    topKInvariant zeroBuf
    ∧ ∃ r, processAccelerometerMax fifo mx = .ok r ∧ topKInvariant r := by
  refine ⟨topKInvariant_zeroBuf, _, ?_, topKInvariant_foldl (contents fifo) mx hmx⟩
  exact processAccelerometerMax_eq fifo mx hfifo ⟨hmx.1, hmx.2.1, hmx.2.2.2⟩

/-- Witness for C17: the batch `5, 3, 9` fed to a buffer holding `9, 5`. -/
theorem topK_invariant_preserved_witness :
    topKInvariant zeroBuf
    ∧ ∃ r, processAccelerometerMax { numVals := 3, val := 5 :: 3 :: 9 :: List.replicate 29 0 }
          { numVals := 2, val := 9 :: 5 :: List.replicate 30 0 } = .ok r
      ∧ topKInvariant r :=
  topK_invariant_preserved { numVals := 3, val := 5 :: 3 :: 9 :: List.replicate 29 0 }
    { numVals := 2, val := 9 :: 5 :: List.replicate 30 0 } (by decide)
    ⟨by decide, by decide, by decide, by decide⟩

end Fitbit

